import Mathlib

/-!
# go-chatroom: the TCP chat server (`cmd/tcp/server.go`)

A shallow embedding of the registry loop `broadcast`, the connection handler
`handleConn`, its idle watchdog and the writer task `sendMessage`, followed by
the properties proved about them.

Go channels are modelled by their buffer, capacity and closed flag.  A
`*User` is an address (`Nat`); the `User` struct stored at an address is read
through a heap `Nat → User` (the program never mutates a `User` after it is
built).  A `chan string` field is a handle (`Nat`) into a channel store, so two
users may alias one channel exactly as two Go structs may hold the same
channel value.
-/

namespace Chatroom

/-! ## Channels -/

/-- A Go `chan string`: queued items (oldest first), capacity, closed flag. -/
structure Chan where
  buf : List String
  cap : Nat
  closed : Bool
deriving DecidableEq, Repr

/-- Result of `ch <- v` attempted at one instant. -/
inductive SendResult where
  | sent (c : Chan)
  | wait
  | panic
deriving DecidableEq, Repr

/-- Result of `<-ch` (or one step of `range ch`) attempted at one instant. -/
inductive RecvResult where
  | value (v : String) (c : Chan)
  | done
  | wait
deriving DecidableEq, Repr

/-- The channel built by `make(chan string, cap)`. -/
def Chan.make (cap : Nat) : Chan := ⟨[], cap, false⟩

/-- The channel with `v` appended at the end of its queue. -/
def Chan.push (c : Chan) (v : String) : Chan := { c with buf := c.buf ++ [v] }

/-- Go `ch <- v`: panics on a closed channel, enqueues when the buffer has room,
otherwise the sender waits. -/
def Chan.send (c : Chan) (v : String) : SendResult :=
  if c.closed then .panic
  else if c.buf.length < c.cap then .sent (c.push v)
  else .wait

/-- Go `close(ch)`: `none` is the panic raised by closing a closed channel. -/
def Chan.close (c : Chan) : Option Chan :=
  if c.closed then none else some { c with closed := true }

/-- Go receive: the oldest queued item if any; on an empty buffer the receive
reports closure when the channel is closed and waits otherwise. -/
def Chan.recv (c : Chan) : RecvResult :=
  match c.buf with
  | v :: rest => .value v { c with buf := rest }
  | [] => if c.closed then .done else .wait

/-! ## Data model (`server.go` lines 22-32) -/

/-- The struct `User`; `MsgChan` is a channel handle, `EnterAt` a timestamp. -/
structure User where
  ID : String
  Addr : String
  EnterAt : Nat
  MsgChan : Nat
deriving DecidableEq, Repr

/-- The struct `Message`. -/
structure Message where
  OwnerID : String
  Content : String
deriving DecidableEq, Repr

/-- State of the registry loop: the key set of `users` (a `map[*User]struct{}`,
kept as a list of addresses read as a set) and the channel store. -/
structure Registry where
  users : List Nat
  chans : Nat → Chan

/-- The three cases of the `select` in `broadcast`. -/
inductive Event where
  | entering (user : Nat)
  | leaving (user : Nat)
  | message (msg : Message)
deriving DecidableEq, Repr

/-- How one iteration of the registry loop ends: normally, with a runtime panic,
or waiting on a full outbox.  Each carries the state reached at that point. -/
inductive Outcome where
  | ok (s : Registry)
  | panic (s : Registry)
  | blocked (s : Registry)

/-- The state carried by an outcome. -/
def Outcome.state : Outcome → Registry
  | .ok s => s
  | .panic s => s
  | .blocked s => s

/-- Whether the iteration (or run) completed normally. -/
def Outcome.isOk : Outcome → Bool
  | .ok _ => true
  | _ => false

/-- Whether the outcome is a runtime panic. -/
def Outcome.isPanic : Outcome → Bool
  | .panic _ => true
  | _ => false

/-- The order in which `for user := range users` visits the keys.  Go leaves it
unspecified, so it is steered by `order`: every key is visited exactly once,
keys named in `order` in that order and last, the others before them.  Any
enumeration `p` of the key set is obtained with `order := p`. -/
def visit (order users : List Nat) : List Nat :=
  ((users ++ order).dedup).filter (fun u => u ∈ users)

/-- The body of `case msg := <-messageChan` (lines 68-73): visit the users,
skip those whose `ID` equals `msg.OwnerID`, send `msg.Content` to the others. -/
def fanout (heap : Nat → User) (msg : Message) : List Nat → Registry → Outcome
  | [], s => .ok s
  | user :: rest, s =>
    if (heap user).ID = msg.OwnerID then fanout heap msg rest s
    else
      match (s.chans (heap user).MsgChan).send msg.Content with
      | .sent c =>
        fanout heap msg rest { s with chans := Function.update s.chans (heap user).MsgChan c }
      | .wait => .blocked s
      | .panic => .panic s

/-- One iteration of the `for { select { ... } }` loop of `broadcast` (lines 57-74)
on the event the `select` received. -/
def broadcastCase (heap : Nat → User) (order : List Nat) (s : Registry) : Event → Outcome
  | .entering user => .ok { s with users := s.users.insert user }
  | .leaving user =>
    let s1 : Registry := { s with users := s.users.filter (fun u => u ≠ user) }
    match (s1.chans (heap user).MsgChan).close with
    | some c => .ok { s1 with chans := Function.update s1.chans (heap user).MsgChan c }
    | none => .panic s1
  | .message msg => fanout heap msg (visit order s.users) s

/-- What happens next in the system around the registry: the loop takes an event
from its `select` (with the visiting order `range` uses for it), or the writer
task of outbox `c` takes the oldest item of that outbox. -/
inductive Step where
  | select (ev : Event) (order : List Nat)
  | receive (c : Nat)
deriving DecidableEq, Repr

/-- The writer task of outbox `c` receives one item (no change when there is none). -/
def writerReceive (s : Registry) (c : Nat) : Registry :=
  match (s.chans c).recv with
  | .value _ ch => { s with chans := Function.update s.chans c ch }
  | _ => s

/-- One step of the system around the registry. -/
def stepRegistry (heap : Nat → User) (s : Registry) : Step → Outcome
  | .select ev order => broadcastCase heap order s ev
  | .receive c => .ok (writerReceive s c)

/-- The registry loop run from state `s` over a sequence of steps; it stops at
the first panic or blocked send. -/
def broadcastLoop (heap : Nat → User) : Registry → List Step → Outcome
  | s, [] => .ok s
  | s, st :: rest =>
    match stepRegistry heap s st with
    | .ok s1 => broadcastLoop heap s1 rest
    | o => o

/-- The function `broadcast` (lines 54-76): `users := make(map[*User]struct{})`, then the loop. -/
def broadcast (heap : Nat → User) (chans : Nat → Chan) (steps : List Step) : Outcome :=
  broadcastLoop heap ⟨[], chans⟩ steps

/-- The events the registry received, in order. -/
def eventsOf : List Step → List Event
  | [] => []
  | .select ev _ :: rest => ev :: eventsOf rest
  | .receive _ :: rest => eventsOf rest


/-! ## Concrete registry inputs used in the examples -/

/-- A heap in which the user at address `p` is named `S1`, `S2` or `S3` and owns
outbox `p`. -/
def demoHeap : Nat → User := fun p =>
  ⟨if p = 1 then "S1" else if p = 2 then "S2" else "S3", "127.0.0.1:50000", 0, p⟩

/-- The same users, all holding the one channel `7` as their outbox. -/
def sharedHeap : Nat → User := fun p =>
  ⟨if p = 1 then "S1" else if p = 2 then "S2" else "S3", "127.0.0.1:50000", 0, 7⟩

/-- A channel store in which every channel is as `make(chan string, 8)` built it. -/
def freshChans : Nat → Chan := fun _ => Chan.make 8

/-- The registry state after `Leave(S2)` then `Join(S2)` from the start: `S2` is a
member and its outbox is closed. -/
def closedMemberState : Registry :=
  (broadcast demoHeap freshChans [.select (.leaving 2) [], .select (.entering 2) []]).state

/-- The registry state after `Join(S1)`, `Join(S2)`, `Leave(S2)` and a message of `S1`. -/
def afterLeaveState : Registry :=
  (broadcast demoHeap freshChans
    [.select (.entering 1) [], .select (.entering 2) [], .select (.leaving 2) [],
     .select (.message ⟨"S1", "hi"⟩) []]).state

/-- The registry state after `Join(S1)`, a message of `S1` and `Join(S2)`. -/
def twoJoinedState : Registry :=
  (broadcast demoHeap freshChans
    [.select (.entering 1) [], .select (.message ⟨"S1", "hi"⟩) [],
     .select (.entering 2) []]).state

/-! ## The handler's protocol towards the registry -/

/-- The protocol a sequence of registry events follows when every session is joined
at most once and left at most once, its Leave coming only after its Join.
`joined` and `left` are the sessions already joined and already left. -/
def protocolOK : List Event → List Nat → List Nat → Bool
  | [], _, _ => true
  | .entering user :: rest, joined, left =>
    decide (user ∉ joined) && protocolOK rest (user :: joined) left
  | .leaving user :: rest, joined, left =>
    decide (user ∈ joined) && decide (user ∉ left) && protocolOK rest joined (user :: left)
  | .message _ :: rest, joined, left => protocolOK rest joined left

/-- Session `user` is joined at the end of `evs`: some `Join(user)` in `evs` has no
`Leave(user)` after it. -/
def JoinedAtEnd (user : Nat) (evs : List Event) : Prop :=
  ∃ pre post, evs = pre ++ .entering user :: post ∧ Event.leaving user ∉ post

/-- The invariant of the registry under the protocol: members are joined and have
not left, sessions that left had joined, and a channel is closed only when it is
the outbox of a session that left. -/
def ProtocolInv (heap : Nat → User) (s : Registry) (joined left : List Nat) : Prop :=
  (∀ u ∈ s.users, u ∈ joined ∧ u ∉ left) ∧
  (∀ u ∈ left, u ∈ joined) ∧
  (∀ c, (s.chans c).closed = true → ∃ u ∈ left, (heap u).MsgChan = c)

/-- A run that follows the protocol: `S1` and `S2` join, `S1` speaks, the writer of
`S2` takes the line, `S1` leaves and its departure is announced. -/
def protocolSteps : List Step :=
  [.select (.entering 1) [], .select (.entering 2) [],
   .select (.message ⟨"S1", "S1: hi"⟩) [], .receive 2,
   .select (.leaving 1) [], .select (.message ⟨"S1", "S1 has left the chat room!"⟩) [2]]

/-! ## The connection handler `handleConn` (lines 78-129) -/

/-- What `handleConn` does that another task can observe, each constructor one
statement of the function. -/
inductive Action where
  /-- `go sendMessage(conn, user.MsgChan)` -/
  | goSendMessage (c : Nat)
  /-- `user.MsgChan <- line` -/
  | toOutbox (c : Nat) (line : String)
  /-- `messageChan <- msg` -/
  | toMessageChan (msg : Message)
  /-- `enteringChan <- user` -/
  | toEnteringChan (user : Nat)
  /-- `go func() { ... }()`, the idle watchdog -/
  | goWatchdog
  /-- `userActive <- struct{}{}` -/
  | toUserActive
  /-- `leavingChan <- user` -/
  | toLeavingChan (user : Nat)
  /-- the deferred `conn.Close()` -/
  | connClose
deriving DecidableEq, Repr

/-- The read loop `for input.Scan() { ... }` (lines 116-120) over the lines the
scanner yields: each line is sent to `messageChan`, then activity is signalled. -/
def readLoop (user : User) : List String → List Action
  | [] => []
  | line :: rest =>
    .toMessageChan ⟨user.ID, user.ID ++ ": " ++ line⟩ :: .toUserActive :: readLoop user rest

/-- The function `handleConn` for a connection whose new `User` struct `user` (with
`ID` from `genUserID()` and `MsgChan` from `make(chan string, 8)`) is stored at
address `addr`, and whose scanner yields `lines` before the read loop ends. -/
def handleConn (addr : Nat) (user : User) (lines : List String) : List Action :=
  [.goSendMessage user.MsgChan,
   .toOutbox user.MsgChan ("Welcome " ++ user.ID ++ " to chat room!"),
   .toMessageChan ⟨user.ID, user.ID ++ " has entered the chat room!"⟩,
   .toEnteringChan addr,
   .goWatchdog]
  ++ readLoop user lines ++
  [.toLeavingChan addr,
   .toMessageChan ⟨user.ID, user.ID ++ " has left the chat room!"⟩,
   .connClose]

/-- The registry event an action submits, if it submits one. -/
def Action.event : Action → Option Event
  | .toMessageChan msg => some (.message msg)
  | .toEnteringChan user => some (.entering user)
  | .toLeavingChan user => some (.leaving user)
  | _ => none

/-- The events a sequence of actions submits to the registry, in order. -/
def submittedEvents (acts : List Action) : List Event :=
  acts.filterMap Action.event

/-- Whether an event is a Join. -/
def Event.isEntering : Event → Bool
  | .entering _ => true
  | _ => false

/-- Whether an event is a Leave. -/
def Event.isLeaving : Event → Bool
  | .leaving _ => true
  | _ => false

/-- Whether an event is a message event. -/
def Event.isMessage : Event → Bool
  | .message _ => true
  | _ => false

/-! ## The writer task `sendMessage` (lines 136-140) -/

/-- The connection as the writer sees it: the bytes it has accepted so far, and
whether `conn.Close()` has been called on it. -/
structure Conn where
  out : String
  closed : Bool
deriving DecidableEq, Repr

/-- The write that `fmt.Fprintln(conn, msg)` makes.  On a closed connection it fails
at once and nothing is written.  On an open one the network decides: without a
fault (`none`) all the bytes are accepted; with a fault `some k` the write fails
after the first `k` bytes have been accepted. -/
def Conn.write (c : Conn) (bytes : String) (fault : Option Nat) : Conn :=
  if c.closed then c
  else
    match fault with
    | none => { c with out := c.out ++ bytes }
    | some k => { c with out := c.out ++ ⟨bytes.data.take k⟩ }

/-- The writer task: its outbox `msgChan`, its connection `conn`, and whether the
`range` loop has ended (the function has returned). -/
structure Writer where
  msgChan : Chan
  conn : Conn
  returned : Bool
deriving DecidableEq, Repr

/-- One turn of `for msg := range msgChan { fmt.Fprintln(conn, msg) }`: take the
oldest item and write it followed by a newline, the result of `Fprintln` being
dropped (`fault` is what the network does to this write); end the loop when the
channel is closed and drained; wait (no change) when it is empty and open. -/
def sendMessageTurn (w : Writer) (fault : Option Nat) : Writer :=
  if w.returned then w
  else
    match w.msgChan.recv with
    | .value msg c => { w with msgChan := c, conn := w.conn.write (msg ++ "\n") fault }
    | .done => { w with returned := true }
    | .wait => w

/-- The function `sendMessage` run for one turn per element of `faults`, with nobody
else touching the outbox or the connection. -/
def sendMessage : List (Option Nat) → Writer → Writer
  | [], w => w
  | fault :: rest, w => sendMessage rest (sendMessageTurn w fault)

/-- The text `m1 ++ "\n" ++ ... ++ mk ++ "\n"`. -/
def linesOf : List String → String
  | [] => ""
  | m :: rest => m ++ "\n" ++ linesOf rest

/-- The pieces of text put one after the other. -/
def joinOf : List String → String
  | [] => ""
  | piece :: rest => piece ++ joinOf rest

/-- The text `piece` is an initial part of the text `whole`. -/
def InitialPart (piece whole : String) : Prop := ∃ rest : String, piece ++ rest = whole

/-- Whose turn it is in the outbox pipeline. -/
inductive Turn where
  /-- the task feeding the outbox places its next message, or closes the outbox -/
  | producer
  /-- the writer runs one turn of its loop; `fault` is what the network does to the
  write, if it makes one -/
  | writer (fault : Option Nat)
  /-- `conn.Close()` is called: by the idle watchdog (line 109) or by the deferred
  close of `handleConn` (line 79) -/
  | closeConn
deriving DecidableEq, Repr

/-- A turn in which the connection stays as it is and no write meets a fault. -/
def Turn.clean : Turn → Bool
  | .producer => true
  | .writer none => true
  | _ => false

/-- An outbox with the task feeding it and the writer draining it: `todo` are the
messages still to be placed on the outbox, after which the outbox is closed. -/
structure Pipe where
  todo : List String
  w : Writer
deriving DecidableEq, Repr

/-- The pipeline at the start: nothing placed yet, an outbox as `make(chan string,
cap)` built it, an open connection with nothing written. -/
def Pipe.init (cap : Nat) (msgs : List String) : Pipe :=
  ⟨msgs, ⟨Chan.make cap, ⟨"", false⟩, false⟩⟩

/-- One turn of the pipeline.  The producer places its next message when the outbox
has room (it waits otherwise) and closes the outbox once, after the last message;
the writer runs one turn of `sendMessage`; a close marks the connection closed. -/
def Pipe.turn (p : Pipe) : Turn → Pipe
  | .writer fault => { p with w := sendMessageTurn p.w fault }
  | .closeConn => { p with w := { p.w with conn := { p.w.conn with closed := true } } }
  | .producer =>
    match p.todo with
    | m :: rest =>
      match p.w.msgChan.send m with
      | .sent c => ⟨rest, { p.w with msgChan := c }⟩
      | _ => p
    | [] =>
      match p.w.msgChan.close with
      | some c => { p with w := { p.w with msgChan := c } }
      | none => p

/-- The pipeline run over a schedule of turns. -/
def Pipe.run (p : Pipe) (sched : List Turn) : Pipe :=
  sched.foldl Pipe.turn p

/-- A schedule made of rounds is fair when each round gives a turn to both tasks. -/
def fairRounds (rounds : List (List Turn)) : Prop :=
  ∀ r ∈ rounds, Turn.producer ∈ r ∧ ∃ fault, Turn.writer fault ∈ r

/-- What the writer has done with the items it took: `log` pairs, in order, what the
connection accepted for an item with that item. -/
def Accounted (msgs : List String) (p : Pipe) (log : List (String × String)) : Prop :=
  log.map Prod.snd ++ p.w.msgChan.buf ++ p.todo = msgs ∧
  (∀ e ∈ log, InitialPart e.1 (e.2 ++ "\n")) ∧
  p.w.conn.out = joinOf (log.map Prod.fst)

/-- The invariant of the pipeline: every message is still to be placed, queued, or
taken by the writer and accounted for, in order; the producer has closed the outbox
only after placing everything; the writer has returned only after the outbox was
closed and drained. -/
def PipeInv (msgs : List String) (p : Pipe) : Prop :=
  (∃ log, Accounted msgs p log) ∧
  (p.w.msgChan.closed = true → p.todo = []) ∧
  (p.w.returned = true → p.w.msgChan.closed = true ∧ p.w.msgChan.buf = [])

/-- The invariant of the pipeline while the connection is open and no write has met
a fault: what is written, queued and still to be placed adds up to the input. -/
def CleanInv (msgs : List String) (p : Pipe) : Prop :=
  p.w.conn.closed = false ∧
  p.w.conn.out ++ linesOf p.w.msgChan.buf ++ linesOf p.todo = linesOf msgs

/-- The work left in the pipeline: two units per message still to be placed, one per
queued item, one for the close and one for the writer's return. -/
def Pipe.work (p : Pipe) : Nat :=
  2 * p.todo.length + p.w.msgChan.buf.length
    + (if p.w.msgChan.closed then 0 else 1) + (if p.w.returned then 0 else 1)

/-- A schedule in which the connection is closed while the line `b` is still
queued: `a` is placed and written, the connection is closed, `b` is placed and
taken, the outbox is closed and the writer returns. -/
def closedEarly : List Turn :=
  [.producer, .writer none, .closeConn, .producer, .writer none, .producer, .writer none]

/-- The part of the pipeline that decides what the tasks can do next: everything but
the connection. -/
def Pipe.core (p : Pipe) : List String × Chan × Bool :=
  (p.todo, p.w.msgChan, p.w.returned)

/-- The pipeline for `msgs` on an outbox of capacity `cap`, after the schedule `sched`. -/
def Pipe.after (cap : Nat) (msgs : List String) (sched : List Turn) : Pipe :=
  (Pipe.init cap msgs).run sched

/-! ## The idle watchdog of `handleConn` (lines 99-112)

Time is counted in nanoseconds, as `time.Duration` does. -/

/-- `time.Minute`, in nanoseconds. -/
def Minute : Nat := 60 * 1000000000

/-- The constant `d := 5 * time.Minute` of the watchdog. -/
def idleTimeout : Nat := 5 * Minute

/-- A `*time.Timer` as the watchdog sees it: the instant at which the armed timer
is due (`none` when it is not armed: it has fired), and whether a value waits in
its channel `timer.C`. -/
structure Timer where
  due : Option Nat
  pending : Bool
deriving DecidableEq, Repr

/-- The call `time.NewTimer(d)` made at instant `now`. -/
def Timer.new (now d : Nat) : Timer := ⟨some (now + d), false⟩

/-- The call `timer.Reset(d)` made at instant `now`: the timer is armed for
`now + d`.  With `keepStale` (Go before 1.23) a value already waiting in `timer.C`
stays there; without it (Go 1.23 and later) it is discarded. -/
def Timer.reset (keepStale : Bool) (t : Timer) (now d : Nat) : Timer :=
  ⟨some (now + d), keepStale && t.pending⟩

/-- State of the watchdog goroutine: the current instant, its timer, and the number
of times it has called `conn.Close()`. -/
structure Watchdog where
  now : Nat
  timer : Timer
  closes : Nat
deriving DecidableEq, Repr

/-- What can happen to the watchdog, with the instant at which it happens. -/
inductive Tick where
  /-- the runtime fires the armed timer: a value is put in `timer.C` -/
  | fire (t : Nat)
  /-- `case <-userActive:` is taken, then `timer.Reset(d)` -/
  | active (t : Nat)
  /-- `case <-timer.C:` is taken, then `conn.Close()` -/
  | expire (t : Nat)
deriving DecidableEq, Repr

/-- The instant of a tick. -/
def Tick.time : Tick → Nat
  | .fire t => t
  | .active t => t
  | .expire t => t

/-- Whether a tick is an activity signal. -/
def Tick.isActive : Tick → Bool
  | .active _ => true
  | _ => false

/-- Whether a tick is an expiry seen by the watchdog (a forced close). -/
def Tick.isExpire : Tick → Bool
  | .expire _ => true
  | _ => false

/-- One iteration of the watchdog's `for { select { ... } }`, or one action of the
runtime on its timer; `none` when the tick cannot happen in this state (time does
not run backwards, the timer fires only when armed and due, `timer.C` can be
received from only when a value waits in it). -/
def watchdogStep (keepStale : Bool) (d : Nat) (w : Watchdog) : Tick → Option Watchdog
  | .fire t =>
    match w.timer.due with
    | some due =>
      if w.now ≤ t ∧ due ≤ t then some { w with now := t, timer := ⟨none, true⟩ } else none
    | none => none
  | .active t =>
    if w.now ≤ t then some { w with now := t, timer := w.timer.reset keepStale t d } else none
  | .expire t =>
    if w.now ≤ t ∧ w.timer.pending = true then
      some { now := t, timer := { w.timer with pending := false }, closes := w.closes + 1 }
    else none

/-- The watchdog run from state `w` over a sequence of ticks. -/
def watchdogRun (keepStale : Bool) (d : Nat) : Watchdog → List Tick → Option Watchdog
  | w, [] => some w
  | w, tk :: rest =>
    match watchdogStep keepStale d w tk with
    | some w1 => watchdogRun keepStale d w1 rest
    | none => none

/-- The watchdog goroutine started at instant `start`: `timer := time.NewTimer(d)`,
then the loop. -/
def watchdog (keepStale : Bool) (d start : Nat) (ticks : List Tick) : Option Watchdog :=
  watchdogRun keepStale d ⟨start, Timer.new start d, 0⟩ ticks

/-- Every activity signal comes less than `d` after the previous one (`prev` is the
instant of the previous signal, at first the start of the watchdog). -/
def gapsBelow (d : Nat) : Nat → List Tick → Bool
  | _, [] => true
  | prev, .active t :: rest => decide (t < prev + d) && gapsBelow d t rest
  | prev, _ :: rest => gapsBelow d prev rest

/-- The instant of the last activity signal (`prev` when there is none). -/
def lastActive : Nat → List Tick → Nat
  | prev, [] => prev
  | _, .active t :: rest => lastActive t rest
  | prev, _ :: rest => lastActive prev rest

/-- How many more expiries the timer can still deliver without being reset: one if
it is armed, one if a value waits in `timer.C`. -/
def Timer.credit (t : Timer) : Nat :=
  (if t.due.isSome then 1 else 0) + (if t.pending then 1 else 0)

/-- The ticks of a session whose timer expires once, which then signals activity
once more, and whose timer expires again five minutes later. -/
def twoExpiries : List Tick :=
  [.fire idleTimeout, .expire idleTimeout, .active (idleTimeout + 1),
   .fire (2 * idleTimeout + 1), .expire (2 * idleTimeout + 1)]

/-! ## The intake of the registry: three channels and a `select` (lines 13-20, 57-66) -/

/-- Capacity of `messageChan` (`make(chan Message, 8)`); `enteringChan` and
`leavingChan` are unbuffered. -/
def messageChanCap : Nat := 8

/-- The handlers and the registry loop around the three channels: what each running
`handleConn` still has to execute, the queue of `messageChan` (oldest first), the
events whose send has completed, in order of completion, and the events the
`select` of `broadcast` has taken, in order. -/
structure Intake where
  handlers : List (List Action)
  messageChan : List Message
  submitted : List Event
  processed : List Event
deriving DecidableEq, Repr

/-- What happens next at the intake. -/
inductive Move where
  /-- handler `i` executes its next statement (a send on `messageChan` needs room in
  its buffer; a send on an unbuffered channel completes only in a `select` move) -/
  | handler (i : Nat)
  /-- the `select` takes `case user := <-enteringChan` from handler `i`, which waits
  in `enteringChan <- user` -/
  | selectEntering (i : Nat)
  /-- the `select` takes `case user := <-leavingChan` from handler `i`, which waits
  in `leavingChan <- user` -/
  | selectLeaving (i : Nat)
  /-- the `select` takes `case msg := <-messageChan`, the oldest queued message -/
  | selectMessage
deriving DecidableEq, Repr

/-- One move at the intake; `none` when the move cannot happen in this state.  When
several cases of the `select` can proceed Go picks one at random, so each of them
is a possible move. -/
def Intake.move (s : Intake) : Move → Option Intake
  | .handler i =>
    match s.handlers.get? i with
    | some (.toMessageChan msg :: rest) =>
      if s.messageChan.length < messageChanCap then
        some { s with
          handlers := s.handlers.set i rest
          messageChan := s.messageChan ++ [msg]
          submitted := s.submitted ++ [.message msg] }
      else none
    | some (.toEnteringChan _ :: _) => none
    | some (.toLeavingChan _ :: _) => none
    | some (_ :: rest) => some { s with handlers := s.handlers.set i rest }
    | _ => none
  | .selectEntering i =>
    match s.handlers.get? i with
    | some (.toEnteringChan user :: rest) =>
      some { s with
        handlers := s.handlers.set i rest
        submitted := s.submitted ++ [.entering user]
        processed := s.processed ++ [.entering user] }
    | _ => none
  | .selectLeaving i =>
    match s.handlers.get? i with
    | some (.toLeavingChan user :: rest) =>
      some { s with
        handlers := s.handlers.set i rest
        submitted := s.submitted ++ [.leaving user]
        processed := s.processed ++ [.leaving user] }
    | _ => none
  | .selectMessage =>
    match s.messageChan with
    | msg :: queue =>
      some { s with messageChan := queue, processed := s.processed ++ [.message msg] }
    | [] => none

/-- The intake run over a schedule of moves. -/
def Intake.run : Intake → List Move → Option Intake
  | s, [] => some s
  | s, m :: rest =>
    match s.move m with
    | some s1 => s1.run rest
    | none => none

/-- The intake when the given handlers start: nothing queued, submitted or processed. -/
def Intake.init (handlers : List (List Action)) : Intake := ⟨handlers, [], [], []⟩

/-- The message events of a sequence, in order. -/
def messagesOf (evs : List Event) : List Event := evs.filter Event.isMessage

/-- The Join and Leave events of a sequence, in order. -/
def membershipOf (evs : List Event) : List Event := evs.filter (fun e => !e.isMessage)

/-- The order kept at the intake, on the queue of `messageChan` and the two logs:
messages leave `messageChan` in the order they entered it; Joins and Leaves are
processed in the order they were handed over; and whatever was processed before a
Join or Leave had been submitted before it. -/
def OrderOn (queue : List Message) (submitted processed : List Event) : Prop :=
  messagesOf processed ++ queue.map Event.message = messagesOf submitted ∧
  membershipOf processed = membershipOf submitted ∧
  (∀ a x b, submitted = a ++ x :: b → x.isMessage = false →
    ∃ pa pb, processed = pa ++ x :: pb ∧ membershipOf pa = membershipOf a ∧
      messagesOf pa <+: messagesOf a)

/-- A schedule for one connection that says `hi`: the handler queues its entrance
message and waits in the Join, which the `select` takes first; later it queues its
chat line and waits in the Leave, which the `select` again takes first. -/
def overtakingMoves : List Move :=
  [.handler 0, .handler 0, .handler 0, .selectEntering 0, .selectMessage,
   .handler 0, .handler 0, .handler 0, .selectLeaving 0, .selectMessage]

/-- The intake reached by `overtakingMoves` for the one connection of `S1` saying `hi`. -/
def overtakenIntake : Intake :=
  ((Intake.init [handleConn 1 (demoHeap 1) ["hi"]]).run overtakingMoves).getD (Intake.init [])
/-! ## Lemmas on the registry loop -/

theorem broadcastLoop_append (heap : Nat → User) (a b : List Step) (s : Registry) :
    broadcastLoop heap s (a ++ b) =
      match broadcastLoop heap s a with
      | .ok s1 => broadcastLoop heap s1 b
      | o => o := by
  induction a generalizing s with
  | nil => simp [broadcastLoop]
  | cons st rest ih =>
    simp only [List.cons_append, broadcastLoop]
    cases stepRegistry heap s st with
    | ok s1 => simpa using ih s1
    | panic s1 => rfl
    | blocked s1 => rfl

theorem broadcastLoop_append_ok (heap : Nat → User) (a b : List Step) (s t : Registry)
    (h : broadcastLoop heap s (a ++ b) = .ok t) :
    ∃ s1, broadcastLoop heap s a = .ok s1 ∧ broadcastLoop heap s1 b = .ok t := by
  rw [broadcastLoop_append] at h
  cases ha : broadcastLoop heap s a with
  | ok s1 => rw [ha] at h; exact ⟨s1, rfl, h⟩
  | panic s1 => rw [ha] at h; cases h
  | blocked s1 => rw [ha] at h; cases h

theorem broadcastLoop_cons_ok (heap : Nat → User) (st : Step) (rest : List Step) (s t : Registry)
    (h : broadcastLoop heap s (st :: rest) = .ok t) :
    ∃ s1, stepRegistry heap s st = .ok s1 ∧ broadcastLoop heap s1 rest = .ok t := by
  simp only [broadcastLoop] at h
  cases hs : stepRegistry heap s st with
  | ok s1 => rw [hs] at h; exact ⟨s1, rfl, h⟩
  | panic s1 => rw [hs] at h; cases h
  | blocked s1 => rw [hs] at h; cases h

theorem send_sent_iff (c c1 : Chan) (v : String) :
    c.send v = .sent c1 ↔
      c.closed = false ∧ c.buf.length < c.cap ∧ c1 = c.push v := by
  unfold Chan.send
  cases hc : c.closed <;> by_cases hl : c.buf.length < c.cap <;> simp [hl, eq_comm]

theorem send_panic_iff (c : Chan) (v : String) : c.send v = .panic ↔ c.closed = true := by
  unfold Chan.send
  cases hc : c.closed <;> by_cases hl : c.buf.length < c.cap <;> simp [hl]

theorem fanout_users (heap : Nat → User) (msg : Message) (l : List Nat) (s : Registry) :
    (fanout heap msg l s).state.users = s.users := by
  induction l generalizing s with
  | nil => rfl
  | cons u rest ih =>
    unfold fanout
    split
    · exact ih s
    · cases hsend : (s.chans (heap u).MsgChan).send msg.Content with
      | sent c => simpa using ih _
      | wait => rfl
      | panic => rfl

/-- The fan-out never changes a closed flag. -/
theorem fanout_closed_flag (heap : Nat → User) (msg : Message) (l : List Nat) (s : Registry)
    (c : Nat) : ((fanout heap msg l s).state.chans c).closed = (s.chans c).closed := by
  induction l generalizing s with
  | nil => rfl
  | cons u rest ih =>
    unfold fanout
    split
    · exact ih s
    · cases hsend : (s.chans (heap u).MsgChan).send msg.Content with
      | sent c1 =>
        simp only
        rw [ih]
        obtain ⟨h1, _, h3⟩ := (send_sent_iff _ _ _).1 hsend
        by_cases hc : c = (heap u).MsgChan
        · subst hc; simp [h3, h1, Chan.push]
        · simp [Function.update_noteq hc]
      | wait => rfl
      | panic => rfl

/-- The fan-out leaves a closed channel exactly as it was. -/
theorem fanout_closed_unchanged (heap : Nat → User) (msg : Message) (l : List Nat) (s : Registry)
    (c : Nat) (hc : (s.chans c).closed = true) :
    (fanout heap msg l s).state.chans c = s.chans c := by
  induction l generalizing s with
  | nil => rfl
  | cons u rest ih =>
    unfold fanout
    split
    · exact ih s hc
    · cases hsend : (s.chans (heap u).MsgChan).send msg.Content with
      | sent c1 =>
        simp only
        obtain ⟨h1, _, _⟩ := (send_sent_iff _ _ _).1 hsend
        have hne : c ≠ (heap u).MsgChan := by
          intro h; subst h; rw [hc] at h1; cases h1
        rw [ih]
        · simp [Function.update_noteq hne]
        · simpa [Function.update_noteq hne] using hc
      | wait => rfl
      | panic => rfl

/-- The fan-out panics only at a visited recipient whose outbox is closed. -/
theorem fanout_no_panic (heap : Nat → User) (msg : Message) (l : List Nat) (s : Registry)
    (hopen : ∀ u ∈ l, (s.chans (heap u).MsgChan).closed = false) :
    (fanout heap msg l s).isPanic = false := by
  induction l generalizing s with
  | nil => rfl
  | cons u rest ih =>
    unfold fanout
    split
    · exact ih s (fun v hv => hopen v (List.mem_cons_of_mem _ hv))
    · cases hsend : (s.chans (heap u).MsgChan).send msg.Content with
      | sent c1 =>
        simp only
        obtain ⟨h1, _, h3⟩ := (send_sent_iff _ _ _).1 hsend
        apply ih
        intro v hv
        by_cases hc : (heap v).MsgChan = (heap u).MsgChan
        · rw [hc]; simp [h3, h1, Chan.push]
        · simpa [Function.update_noteq hc] using hopen v (List.mem_cons_of_mem _ hv)
      | wait => rfl
      | panic =>
        have := (send_panic_iff _ _).1 hsend
        rw [hopen u (List.mem_cons_self _ _)] at this
        cases this

theorem visit_nodup (order users : List Nat) : (visit order users).Nodup :=
  (List.nodup_dedup _).filter _

theorem mem_visit (order users : List Nat) (u : Nat) : u ∈ visit order users ↔ u ∈ users := by
  simp only [visit, List.mem_filter, List.mem_dedup, List.mem_append, decide_eq_true_eq]
  constructor
  · exact fun h => h.2
  · exact fun h => ⟨Or.inl h, h⟩

/-- The fan-out over a duplicate-free list whose recipients have open, non-full
and pairwise distinct outboxes: it completes, and each channel that is the
outbox of a recipient gains the content once while every other channel is
untouched. -/
theorem fanout_delivers (heap : Nat → User) (msg : Message) (l : List Nat) (s : Registry)
    (hnd : l.Nodup)
    (hopen : ∀ u ∈ l, (heap u).ID ≠ msg.OwnerID →
      (s.chans (heap u).MsgChan).closed = false ∧
      (s.chans (heap u).MsgChan).buf.length < (s.chans (heap u).MsgChan).cap)
    (hdist : ∀ u ∈ l, ∀ v ∈ l, u ≠ v → (heap u).ID ≠ msg.OwnerID → (heap v).ID ≠ msg.OwnerID →
      (heap u).MsgChan ≠ (heap v).MsgChan) :
    ∃ t, fanout heap msg l s = .ok t ∧ t.users = s.users ∧
      (∀ u ∈ l, (heap u).ID ≠ msg.OwnerID →
        t.chans (heap u).MsgChan = (s.chans (heap u).MsgChan).push msg.Content) ∧
      (∀ c, (∀ u ∈ l, (heap u).ID ≠ msg.OwnerID → (heap u).MsgChan ≠ c) →
        t.chans c = s.chans c) := by
  induction l generalizing s with
  | nil => exact ⟨s, rfl, rfl, by simp, fun c _ => rfl⟩
  | cons u rest ih =>
    have hnd1 : rest.Nodup := (List.nodup_cons.1 hnd).2
    have hu : u ∉ rest := (List.nodup_cons.1 hnd).1
    unfold fanout
    by_cases hid : (heap u).ID = msg.OwnerID
    · rw [if_pos hid]
      obtain ⟨t, ht, htu, hrec, hoth⟩ := ih s hnd1
        (fun v hv => hopen v (List.mem_cons_of_mem _ hv))
        (fun v hv w hw => hdist v (List.mem_cons_of_mem _ hv) w (List.mem_cons_of_mem _ hw))
      refine ⟨t, ht, htu, ?_, ?_⟩
      · intro v hv hvid
        rcases List.mem_cons.1 hv with h | h
        · subst h; exact absurd hid hvid
        · exact hrec v h hvid
      · intro c hc
        exact hoth c (fun v hv => hc v (List.mem_cons_of_mem _ hv))
    · rw [if_neg hid]
      obtain ⟨ho, hroom⟩ := hopen u (List.mem_cons_self _ _) hid
      have hsend : (s.chans (heap u).MsgChan).send msg.Content =
          .sent ((s.chans (heap u).MsgChan).push msg.Content) :=
        (send_sent_iff _ _ _).2 ⟨ho, hroom, rfl⟩
      rw [hsend]
      simp only
      have hne : ∀ v ∈ rest, (heap v).ID ≠ msg.OwnerID → (heap v).MsgChan ≠ (heap u).MsgChan := by
        intro v hv hvid
        have hvu : v ≠ u := fun h => hu (h ▸ hv)
        exact hdist v (List.mem_cons_of_mem _ hv) u (List.mem_cons_self _ _) hvu hvid hid
      obtain ⟨t, ht, htu, hrec, hoth⟩ := ih
        ⟨s.users, Function.update s.chans (heap u).MsgChan
            ((s.chans (heap u).MsgChan).push msg.Content)⟩ hnd1
        (fun v hv hvid => by
          simpa [Function.update_noteq (hne v hv hvid)] using
            hopen v (List.mem_cons_of_mem _ hv) hvid)
        (fun v hv w hw => hdist v (List.mem_cons_of_mem _ hv) w (List.mem_cons_of_mem _ hw))
      refine ⟨t, ht, htu, ?_, ?_⟩
      · intro v hv hvid
        rcases List.mem_cons.1 hv with h | h
        · subst h
          rw [hoth _ (fun w hw hwid => hne w hw hwid)]
          simp
        · rw [hrec v h hvid]
          simp [Function.update_noteq (hne v h hvid)]
      · intro c hc
        have hcu : c ≠ (heap u).MsgChan := fun h => hc u (List.mem_cons_self _ _) hid h.symm
        rw [hoth c (fun v hv => hc v (List.mem_cons_of_mem _ hv))]
        simp [Function.update_noteq hcu]


theorem union_of_subset (a b : List Nat) (h : ∀ u ∈ a, u ∈ b) : a ∪ b = b := by
  induction a with
  | nil => rfl
  | cons x rest ih =>
    have hr : ∀ u ∈ rest, u ∈ b := fun u hu => h u (List.mem_cons_of_mem _ hu)
    rw [List.cons_union, ih hr]
    exact List.insert_of_mem (h x (List.mem_cons_self _ _))

/-- Every enumeration `p` of the key set is a visiting order: `visit p users = p`. -/
theorem visit_enumeration (p users : List Nat) (hnd : p.Nodup)
    (hmem : ∀ u, u ∈ p ↔ u ∈ users) : visit p users = p := by
  unfold visit
  rw [List.dedup_append, hnd.dedup, union_of_subset users p (fun u hu => (hmem u).2 hu)]
  apply List.filter_eq_self.2
  intro u hu
  simpa using (hmem u).1 hu

theorem close_some_iff (c c1 : Chan) :
    c.close = some c1 ↔ c.closed = false ∧ c1 = { c with closed := true } := by
  unfold Chan.close
  cases hc : c.closed <;> simp [eq_comm]

theorem close_none_iff (c : Chan) : c.close = none ↔ c.closed = true := by
  unfold Chan.close
  cases hc : c.closed <;> simp

/-- One registry iteration leaves a closed channel exactly as it was. -/
theorem broadcastCase_closed_unchanged (heap : Nat → User) (order : List Nat) (s : Registry)
    (ev : Event) (c : Nat) (hc : (s.chans c).closed = true) :
    (broadcastCase heap order s ev).state.chans c = s.chans c := by
  cases ev with
  | entering user => rfl
  | leaving user =>
    simp only [broadcastCase]
    cases hcl : (s.chans (heap user).MsgChan).close with
    | none => rfl
    | some c1 =>
      obtain ⟨h1, _⟩ := (close_some_iff _ _).1 hcl
      have hne : c ≠ (heap user).MsgChan := by
        intro h; subst h; rw [hc] at h1; cases h1
      simp [Outcome.state, Function.update_noteq hne]
  | message msg => exact fanout_closed_unchanged heap msg _ s c hc

/-- A step of the system keeps a closed channel closed and can only shorten its queue
from the front. -/
theorem stepRegistry_closed (heap : Nat → User) (s : Registry) (st : Step) (c : Nat)
    (hc : (s.chans c).closed = true) :
    ((stepRegistry heap s st).state.chans c).closed = true ∧
      ((stepRegistry heap s st).state.chans c).buf <:+ (s.chans c).buf := by
  cases st with
  | select ev order =>
    simp only [stepRegistry]
    rw [broadcastCase_closed_unchanged heap order s ev c hc]
    exact ⟨hc, List.suffix_refl _⟩
  | receive c1 =>
    simp only [stepRegistry, Outcome.state, writerReceive, Chan.recv]
    by_cases h : c = c1
    · subst h
      cases hb : (s.chans c).buf with
      | nil => simp [hb, hc]
      | cons v rest => simp [hb, hc]
    · cases hb : (s.chans c1).buf with
      | nil => cases hcl : (s.chans c1).closed <;> simp [hb, hcl, hc]
      | cons v rest => simp [hb, Function.update_noteq h, hc]

/-- Over any further run of the loop a closed channel stays closed and its queue only
loses items from the front. -/
theorem broadcastLoop_closed (heap : Nat → User) (steps : List Step) (s : Registry) (c : Nat)
    (hc : (s.chans c).closed = true) :
    ((broadcastLoop heap s steps).state.chans c).closed = true ∧
      ((broadcastLoop heap s steps).state.chans c).buf <:+ (s.chans c).buf := by
  induction steps generalizing s with
  | nil => exact ⟨hc, List.suffix_refl _⟩
  | cons st rest ih =>
    have hst := stepRegistry_closed heap s st c hc
    simp only [broadcastLoop]
    cases hs : stepRegistry heap s st with
    | ok s1 =>
      rw [hs] at hst
      simp only [Outcome.state] at hst
      have := ih s1 hst.1
      exact ⟨this.1, this.2.trans hst.2⟩
    | panic s1 => rw [hs] at hst; exact hst
    | blocked s1 => rw [hs] at hst; exact hst

/-- After a `Leave(user)` that did not panic, the outbox of `user` is closed. -/
theorem leaving_ok_closed (heap : Nat → User) (order : List Nat) (s t : Registry) (user : Nat)
    (h : broadcastCase heap order s (.leaving user) = .ok t) :
    (t.chans (heap user).MsgChan).closed = true := by
  simp only [broadcastCase] at h
  cases hcl : (s.chans (heap user).MsgChan).close with
  | none => rw [hcl] at h; cases h
  | some c1 =>
    rw [hcl] at h
    obtain ⟨_, h2⟩ := (close_some_iff _ _).1 hcl
    cases h
    simp [h2]

/-! ## C1: what processing one message event does -/

/-- C1 (as amended): for every membership set, sender id and content, when the
outbox of every recipient (member whose ID differs from the sender id) is open
and not full and the members have pairwise distinct outboxes, processing the
message event completes, keeps the membership set, appends the content exactly
once at the end of each recipient's outbox, leaves the outbox of every member
whose ID equals the sender id unchanged, and touches no other channel. -/
theorem broadcast_message_delivery (heap : Nat → User) (order : List Nat) (s : Registry)
    (msg : Message)
    (hopen : ∀ u ∈ s.users, (heap u).ID ≠ msg.OwnerID →
      (s.chans (heap u).MsgChan).closed = false ∧
      (s.chans (heap u).MsgChan).buf.length < (s.chans (heap u).MsgChan).cap)
    (hdist : ∀ u ∈ s.users, ∀ v ∈ s.users, u ≠ v → (heap u).MsgChan ≠ (heap v).MsgChan) :
    ∃ t, broadcastCase heap order s (.message msg) = .ok t ∧ t.users = s.users ∧
      (∀ u ∈ s.users, (heap u).ID ≠ msg.OwnerID →
        t.chans (heap u).MsgChan = (s.chans (heap u).MsgChan).push msg.Content) ∧
      (∀ u ∈ s.users, (heap u).ID = msg.OwnerID →
        t.chans (heap u).MsgChan = s.chans (heap u).MsgChan) ∧
      (∀ c, (∀ u ∈ s.users, (heap u).ID ≠ msg.OwnerID → (heap u).MsgChan ≠ c) →
        t.chans c = s.chans c) := by
  obtain ⟨t, ht, htu, hrec, hoth⟩ := fanout_delivers heap msg (visit order s.users) s
    (visit_nodup _ _)
    (fun u hu => hopen u ((mem_visit _ _ _).1 hu))
    (fun u hu v hv huv _ _ => hdist u ((mem_visit _ _ _).1 hu) v ((mem_visit _ _ _).1 hv) huv)
  refine ⟨t, ht, htu, ?_, ?_, ?_⟩
  · exact fun u hu => hrec u ((mem_visit _ _ _).2 hu)
  · intro u hu hid
    apply hoth
    intro v hv hvid heq
    have hv1 := (mem_visit _ _ _).1 hv
    have hvu : v ≠ u := by
      intro h; subst h; exact hvid hid
    exact hdist v hv1 u hu hvu heq
  · intro c hc
    exact hoth c (fun u hu => hc u ((mem_visit _ _ _).1 hu))

/-- Witness of C1: members `S1`, `S2` with fresh outboxes `1`, `2`; `S1` says `hi`. -/
theorem broadcast_message_delivery_witness :
    ∃ t, broadcastCase demoHeap [] ⟨[1, 2], freshChans⟩ (.message ⟨"S1", "hi"⟩) = .ok t ∧
      t.users = [1, 2] ∧
      (∀ u ∈ [1, 2], (demoHeap u).ID ≠ "S1" →
        t.chans (demoHeap u).MsgChan = (freshChans (demoHeap u).MsgChan).push "hi") ∧
      (∀ u ∈ [1, 2], (demoHeap u).ID = "S1" →
        t.chans (demoHeap u).MsgChan = freshChans (demoHeap u).MsgChan) ∧
      (∀ c, (∀ u ∈ [1, 2], (demoHeap u).ID ≠ "S1" → (demoHeap u).MsgChan ≠ c) →
        t.chans c = freshChans c) :=
  broadcast_message_delivery demoHeap [] ⟨[1, 2], freshChans⟩ ⟨"S1", "hi"⟩
    (by decide) (by decide)

/-- C1 as stated fails: (a) after `Leave(S2)`, `Join(S2)` the member `S2` has a closed,
empty (so not full) outbox, and a message from `S1` panics the loop with nothing
delivered to `S2`; (b) when members `S1` and `S2` hold the same channel as outbox
and it is not full, a message from `S1` is appended to `S1`'s own outbox. -/
theorem broadcast_message_delivery_counterexample :
    (2 ∈ closedMemberState.users ∧ (demoHeap 2).ID ≠ "S1" ∧
      (closedMemberState.chans (demoHeap 2).MsgChan).buf.length
        < (closedMemberState.chans (demoHeap 2).MsgChan).cap ∧
      (broadcastCase demoHeap [] closedMemberState (.message ⟨"S1", "hi"⟩)).isPanic = true ∧
      ((broadcastCase demoHeap [] closedMemberState (.message ⟨"S1", "hi"⟩)).state.chans
        (demoHeap 2).MsgChan).buf = []) ∧
    ((sharedHeap 1).ID = "S1" ∧
      (freshChans (sharedHeap 2).MsgChan).buf.length < (freshChans (sharedHeap 2).MsgChan).cap ∧
      ((broadcastCase sharedHeap [] ⟨[1, 2], freshChans⟩ (.message ⟨"S1", "hi"⟩)).state.chans
        (sharedHeap 1).MsgChan).buf = ["hi"]) := by
  decide

theorem stepRegistry_closed_flag_receive (s : Registry) (c c1 : Nat) :
    ((writerReceive s c).chans c1).closed = (s.chans c1).closed := by
  simp only [writerReceive, Chan.recv]
  by_cases h : c1 = c
  · subst h
    cases hb : (s.chans c1).buf with
    | nil => cases hcl : (s.chans c1).closed <;> simp [hb, hcl]
    | cons v rest => simp [hb]
  · cases hb : (s.chans c).buf with
    | nil => cases hcl : (s.chans c).closed <;> simp [hb, hcl]
    | cons v rest => simp [hb, Function.update_noteq h]

/-! ## C2: nothing is delivered after a leave -/

/-- C2: for every sequence of steps processed by the registry loop (Join, Leave and
Broadcast events, interleaved with writer receives) in which `Leave(user)` has been
processed, the outbox of `user` is closed, the next event the loop processes,
whatever it is, leaves that outbox exactly as it is (nothing is enqueued), and over
any further run the outbox stays closed and its queue only loses items from the
front: its content never grows after the leave. -/
theorem no_delivery_after_leave (heap : Nat → User) (s0 t : Registry) (pre mid : List Step)
    (user : Nat) (o : List Nat)
    (h : broadcastLoop heap s0 (pre ++ .select (.leaving user) o :: mid) = .ok t) :
    (t.chans (heap user).MsgChan).closed = true ∧
    (∀ ev order, (broadcastCase heap order t ev).state.chans (heap user).MsgChan =
      t.chans (heap user).MsgChan) ∧
    (∀ post, ((broadcastLoop heap t post).state.chans (heap user).MsgChan).closed = true ∧
      ((broadcastLoop heap t post).state.chans (heap user).MsgChan).buf <:+
        (t.chans (heap user).MsgChan).buf) := by
  obtain ⟨s1, _, h1⟩ := broadcastLoop_append_ok heap pre _ s0 t h
  obtain ⟨s2, h2, h3⟩ := broadcastLoop_cons_ok heap _ mid s1 t h1
  have hcl2 : (s2.chans (heap user).MsgChan).closed = true :=
    leaving_ok_closed heap o s1 s2 user h2
  have hclt : (t.chans (heap user).MsgChan).closed = true := by
    have := (broadcastLoop_closed heap mid s2 _ hcl2).1
    rw [h3] at this
    exact this
  exact ⟨hclt, fun ev order => broadcastCase_closed_unchanged heap order t ev _ hclt,
    fun post => broadcastLoop_closed heap post t _ hclt⟩

/-- Witness of C2: `S1` and `S2` join, `S2` leaves, `S1` then speaks. -/
theorem no_delivery_after_leave_witness :
    (broadcastLoop demoHeap ⟨[], freshChans⟩
        ([.select (.entering 1) [], .select (.entering 2) []] ++
          .select (.leaving 2) [] :: [.select (.message ⟨"S1", "hi"⟩) []])
      = .ok afterLeaveState) ∧
    ((afterLeaveState.chans (demoHeap 2).MsgChan).closed = true ∧
    (∀ ev order, (broadcastCase demoHeap order afterLeaveState ev).state.chans
        (demoHeap 2).MsgChan = afterLeaveState.chans (demoHeap 2).MsgChan) ∧
    (∀ post,
      ((broadcastLoop demoHeap afterLeaveState post).state.chans
        (demoHeap 2).MsgChan).closed = true ∧
      ((broadcastLoop demoHeap afterLeaveState post).state.chans (demoHeap 2).MsgChan).buf <:+
        (afterLeaveState.chans (demoHeap 2).MsgChan).buf)) :=
  ⟨rfl, no_delivery_after_leave demoHeap ⟨[], freshChans⟩ afterLeaveState
    [.select (.entering 1) [], .select (.entering 2) []] [.select (.message ⟨"S1", "hi"⟩) []]
    2 [] rfl⟩

/-! ## C3: a leave for a session that is not a member -/

/-- C3 (as amended): for every registry state and every session that is not in the
membership set, processing its Leave leaves the membership set unchanged; the loop
panics exactly when the session's outbox is already closed (a duplicate Leave), and
when the outbox is still open (a Leave before the Join) it does not fail: it
closes that outbox and changes nothing else. -/
theorem leave_of_absent_session (heap : Nat → User) (order : List Nat) (s : Registry)
    (user : Nat) (habs : user ∉ s.users) :
    (broadcastCase heap order s (.leaving user)).state.users = s.users ∧
    ((broadcastCase heap order s (.leaving user)).isPanic =
      (s.chans (heap user).MsgChan).closed) ∧
    ((s.chans (heap user).MsgChan).closed = false →
      broadcastCase heap order s (.leaving user) =
        .ok ⟨s.users, Function.update s.chans (heap user).MsgChan
          { s.chans (heap user).MsgChan with closed := true }⟩) := by
  have hf : s.users.filter (fun u => decide (u ≠ user)) = s.users := by
    apply List.filter_eq_self.2
    intro u hu
    simp only [decide_eq_true_eq]
    intro h
    exact habs (h ▸ hu)
  simp only [broadcastCase, hf]
  cases hc : (s.chans (heap user).MsgChan).closed with
  | true =>
    rw [(close_none_iff _).2 hc]
    simp [Outcome.state, Outcome.isPanic]
  | false =>
    rw [(close_some_iff _ _).2 ⟨hc, rfl⟩]
    simp [Outcome.state, Outcome.isPanic]

/-- Witness of C3: `Leave(S2)` in the state where only `S1` ever joined. -/
theorem leave_of_absent_session_witness :
    (2 ∉ ([1] : List Nat)) ∧
    (broadcastCase demoHeap [] ⟨[1], freshChans⟩ (.leaving 2)).state.users = [1] ∧
    ((broadcastCase demoHeap [] ⟨[1], freshChans⟩ (.leaving 2)).isPanic =
      (freshChans (demoHeap 2).MsgChan).closed) ∧
    ((freshChans (demoHeap 2).MsgChan).closed = false →
      broadcastCase demoHeap [] ⟨[1], freshChans⟩ (.leaving 2) =
        .ok ⟨[1], Function.update freshChans (demoHeap 2).MsgChan
          { freshChans (demoHeap 2).MsgChan with closed := true }⟩) :=
  ⟨by decide, leave_of_absent_session demoHeap [] ⟨[1], freshChans⟩ 2 (by decide)⟩

/-- C3 as stated fails: after `Join(S1)`, `Leave(S1)` the session `S1` is not in the
membership set, and processing `Leave(S1)` once more panics the loop. -/
theorem leave_of_absent_session_counterexample :
    1 ∉ (broadcast demoHeap freshChans
      [.select (.entering 1) [], .select (.leaving 1) []]).state.users ∧
    (broadcast demoHeap freshChans
      [.select (.entering 1) [], .select (.leaving 1) []]).isOk = true ∧
    (broadcast demoHeap freshChans
      [.select (.entering 1) [], .select (.leaving 1) [], .select (.leaving 1) []]).isPanic
      = true := by
  decide

/-! ## C4: the membership set -/

theorem joinedAtEnd_cons (user : Nat) (e : Event) (evs : List Event) :
    JoinedAtEnd user (e :: evs) ↔
      JoinedAtEnd user evs ∨ (e = .entering user ∧ Event.leaving user ∉ evs) := by
  constructor
  · rintro ⟨pre, post, heq, hno⟩
    cases pre with
    | nil =>
      simp only [List.nil_append, List.cons.injEq] at heq
      exact Or.inr ⟨heq.1, heq.2 ▸ hno⟩
    | cons p pre1 =>
      simp only [List.cons_append, List.cons.injEq] at heq
      exact Or.inl ⟨pre1, post, heq.2, hno⟩
  · rintro (⟨pre, post, heq, hno⟩ | ⟨he, hno⟩)
    · exact ⟨e :: pre, post, by simp [heq], hno⟩
    · exact ⟨[], evs, by simp [he], hno⟩

theorem joinedAtEnd_nil (user : Nat) : ¬ JoinedAtEnd user [] := by
  rintro ⟨pre, post, heq, _⟩
  cases pre <;> simp at heq

/-- Membership after a run of the loop from any state: joined at the end of the
events, or a member at the start that no event left. -/
theorem mem_users_loop (heap : Nat → User) (steps : List Step) (s t : Registry) (user : Nat)
    (h : broadcastLoop heap s steps = .ok t) :
    user ∈ t.users ↔
      JoinedAtEnd user (eventsOf steps) ∨
        (user ∈ s.users ∧ Event.leaving user ∉ eventsOf steps) := by
  induction steps generalizing s with
  | nil =>
    simp only [broadcastLoop, Outcome.ok.injEq] at h
    subst h
    simp [eventsOf, joinedAtEnd_nil]
  | cons st rest ih =>
    obtain ⟨s1, h1, h2⟩ := broadcastLoop_cons_ok heap st rest s t h
    rw [ih s1 h2]
    cases st with
    | receive c =>
      simp only [stepRegistry, Outcome.ok.injEq] at h1
      subst h1
      simp only [eventsOf]
      have : (writerReceive s c).users = s.users := by
        unfold writerReceive
        split <;> rfl
      rw [this]
    | select ev order =>
      simp only [stepRegistry] at h1
      simp only [eventsOf, joinedAtEnd_cons]
      cases ev with
      | entering u =>
        simp only [broadcastCase, Outcome.ok.injEq] at h1
        subst h1
        simp only [List.mem_insert_iff, List.mem_cons, Event.entering.injEq, not_or]
        by_cases hu : u = user
        · subst hu; simp; tauto
        · have hu2 : user ≠ u := fun h => hu h.symm
          simp [hu, hu2]
      | leaving u =>
        have hu1 : s1.users = s.users.filter (fun v => v ≠ u) := by
          simp only [broadcastCase] at h1
          cases hcl : (s.chans (heap u).MsgChan).close with
          | none => rw [hcl] at h1; cases h1
          | some c1 => rw [hcl] at h1; cases h1; rfl
        rw [hu1]
        simp only [List.mem_filter, List.mem_cons, Event.leaving.injEq, not_or,
          decide_eq_true_eq]
        by_cases hu : user = u
        · subst hu; simp
        · simp [hu]
      | message msg =>
        have hu1 : s1.users = s.users := by
          have := fanout_users heap msg (visit order s.users) s
          simp only [broadcastCase] at h1
          rw [h1] at this
          exact this
        rw [hu1]
        simp

/-- C4 (as amended): for every sequence of Join, Leave and Broadcast events
(interleaved with writer receives) that the registry loop of `broadcast` has
processed, a session is in the membership set if and only if a Join of it has
been processed and no Leave of it has been processed after that Join. -/
theorem membership_iff_joined (heap : Nat → User) (chans : Nat → Chan) (steps : List Step)
    (t : Registry) (user : Nat) (h : broadcast heap chans steps = .ok t) :
    user ∈ t.users ↔
      ∃ pre post, eventsOf steps = pre ++ .entering user :: post ∧
        Event.leaving user ∉ post := by
  have := mem_users_loop heap steps ⟨[], chans⟩ t user h
  simpa [JoinedAtEnd] using this

/-- Witness of C4: `S1` joins, speaks and `S2` joins. -/
theorem membership_iff_joined_witness :
    (broadcast demoHeap freshChans
        [.select (.entering 1) [], .select (.message ⟨"S1", "hi"⟩) [],
         .select (.entering 2) []] = .ok twoJoinedState) ∧
    (1 ∈ twoJoinedState.users ↔
      ∃ pre post, eventsOf [.select (.entering 1) [], .select (.message ⟨"S1", "hi"⟩) [],
          .select (.entering 2) []] = pre ++ .entering 1 :: post ∧
        Event.leaving 1 ∉ post) :=
  ⟨rfl, membership_iff_joined demoHeap freshChans _ twoJoinedState 1 rfl⟩

/-- C4 as stated fails: in the sequence `Leave(S2)`, `Join(S2)` no session is joined
twice and the Leave of `S2` has been processed, yet after the loop has processed
the sequence (without panic) `S2` is in the membership set. -/
theorem membership_iff_joined_counterexample :
    (broadcast demoHeap freshChans
      [.select (.leaving 2) [], .select (.entering 2) []]).isOk = true ∧
    2 ∈ (broadcast demoHeap freshChans
      [.select (.leaving 2) [], .select (.entering 2) []]).state.users ∧
    Event.leaving 2 ∈ eventsOf [.select (.leaving 2) [], .select (.entering 2) []] ∧
    (eventsOf [.select (.leaving 2) [], .select (.entering 2) []]).count (.entering 2) = 1 := by
  decide

/-! ## C10: under the handler's protocol no outbox of a member is closed -/

theorem protocolInv_open (heap : Nat → User) (s : Registry) (joined left : List Nat)
    (hinj : ∀ u v, (heap u).MsgChan = (heap v).MsgChan → u = v)
    (hinv : ProtocolInv heap s joined left) (u : Nat) (hu : u ∉ left) :
    (s.chans (heap u).MsgChan).closed = false := by
  cases hc : (s.chans (heap u).MsgChan).closed with
  | false => rfl
  | true =>
    obtain ⟨v, hv, hvc⟩ := hinv.2.2 _ hc
    have := hinj v u hvc
    subst this
    exact absurd hv hu

/-- Under the protocol, from a state satisfying the invariant, no initial part of
the run panics and every member of the state it reaches has an open outbox. -/
theorem protocol_loop (heap : Nat → User)
    (hinj : ∀ u v, (heap u).MsgChan = (heap v).MsgChan → u = v)
    (pre post : List Step) (s : Registry) (joined left : List Nat)
    (hinv : ProtocolInv heap s joined left)
    (hp : protocolOK (eventsOf (pre ++ post)) joined left = true) :
    (broadcastLoop heap s pre).isPanic = false ∧
      ∀ u ∈ (broadcastLoop heap s pre).state.users,
        ((broadcastLoop heap s pre).state.chans (heap u).MsgChan).closed = false := by
  induction pre generalizing s joined left with
  | nil =>
    refine ⟨rfl, fun u hu => ?_⟩
    exact protocolInv_open heap s joined left hinj hinv u (hinv.1 u hu).2
  | cons st rest ih =>
    cases st with
    | receive c =>
      simp only [broadcastLoop, stepRegistry]
      simp only [List.cons_append, eventsOf] at hp
      apply ih _ joined left _ hp
      refine ⟨?_, hinv.2.1, ?_⟩
      · intro u hu
        have : (writerReceive s c).users = s.users := by
          unfold writerReceive
          split <;> rfl
        exact hinv.1 u (this ▸ hu)
      · intro c1 hc1
        apply hinv.2.2 c1
        by_contra hopen
        have hopen1 : (s.chans c1).closed = false := by simpa using hopen
        have := (stepRegistry_closed_flag_receive s c c1)
        rw [this, hopen1] at hc1
        cases hc1
    | select ev order =>
      simp only [List.cons_append, eventsOf] at hp
      cases ev with
      | entering user =>
        simp only [protocolOK, Bool.and_eq_true, decide_eq_true_eq] at hp
        simp only [broadcastLoop, stepRegistry, broadcastCase]
        apply ih _ (user :: joined) left _ hp.2
        refine ⟨?_, ?_, hinv.2.2⟩
        · intro u hu
          simp only [List.mem_insert_iff] at hu
          rcases hu with h | h
          · subst h
            exact ⟨List.mem_cons_self _ _, fun hl => hp.1 (hinv.2.1 _ hl)⟩
          · exact ⟨List.mem_cons_of_mem _ (hinv.1 u h).1, (hinv.1 u h).2⟩
        · exact fun u hu => List.mem_cons_of_mem _ (hinv.2.1 u hu)
      | leaving user =>
        simp only [protocolOK, Bool.and_eq_true, decide_eq_true_eq] at hp
        have hopen := protocolInv_open heap s joined left hinj hinv user hp.1.2
        simp only [broadcastLoop, stepRegistry, broadcastCase]
        rw [(close_some_iff _ _).2 ⟨hopen, rfl⟩]
        simp only
        apply ih _ joined (user :: left) _ hp.2
        refine ⟨?_, ?_, ?_⟩
        · intro u hu
          simp only [List.mem_filter, decide_eq_true_eq] at hu
          refine ⟨(hinv.1 u hu.1).1, ?_⟩
          simp only [List.mem_cons, not_or]
          exact ⟨hu.2, (hinv.1 u hu.1).2⟩
        · intro u hu
          rcases List.mem_cons.1 hu with h | h
          · subst h; exact hp.1.1
          · exact hinv.2.1 u h
        · intro c hc
          by_cases hcu : c = (heap user).MsgChan
          · exact ⟨user, List.mem_cons_self _ _, hcu.symm⟩
          · simp only [Function.update_noteq hcu] at hc
            obtain ⟨v, hv, hvc⟩ := hinv.2.2 c hc
            exact ⟨v, List.mem_cons_of_mem _ hv, hvc⟩
      | message msg =>
        simp only [protocolOK] at hp
        have hnp : (fanout heap msg (visit order s.users) s).isPanic = false := by
          apply fanout_no_panic
          intro u hu
          exact protocolInv_open heap s joined left hinj hinv u
            (hinv.1 u ((mem_visit _ _ _).1 hu)).2
        have husers := fanout_users heap msg (visit order s.users) s
        have hflag := fanout_closed_flag heap msg (visit order s.users) s
        simp only [broadcastLoop, stepRegistry, broadcastCase]
        cases hf : fanout heap msg (visit order s.users) s with
        | ok s1 =>
          rw [hf] at husers hflag
          simp only [Outcome.state] at husers hflag
          apply ih _ joined left _ hp
          refine ⟨fun u hu => hinv.1 u (husers ▸ hu), hinv.2.1, ?_⟩
          intro c hc
          rw [hflag] at hc
          exact hinv.2.2 c hc
        | panic s1 => rw [hf] at hnp; cases hnp
        | blocked s1 =>
          rw [hf] at husers hflag
          simp only [Outcome.state] at husers hflag
          refine ⟨rfl, fun u hu => ?_⟩
          simp only [Outcome.state] at hu ⊢
          rw [hflag]
          exact protocolInv_open heap s joined left hinj hinv u (hinv.1 u (husers ▸ hu)).2

/-- C10: for every sequence of Join, Leave and Broadcast events (interleaved with
writer receives) in which sessions have pairwise distinct outboxes, all open when
`broadcast` starts, and each session is joined at most once and left at most
once, its Leave only after its Join: at every point of the run (after every
initial part `pre` of the sequence) the loop has not panicked, so it never sent
on a closed outbox and never closed a closed outbox, and every session in the
membership set has an open outbox. -/
theorem outbox_open_under_protocol (heap : Nat → User) (chans : Nat → Chan)
    (pre post : List Step)
    (hinj : ∀ u v, (heap u).MsgChan = (heap v).MsgChan → u = v)
    (hopen : ∀ c, (chans c).closed = false)
    (hp : protocolOK (eventsOf (pre ++ post)) [] [] = true) :
    (broadcast heap chans pre).isPanic = false ∧
      ∀ u ∈ (broadcast heap chans pre).state.users,
        ((broadcast heap chans pre).state.chans (heap u).MsgChan).closed = false := by
  apply protocol_loop heap hinj pre post ⟨[], chans⟩ [] [] _ hp
  refine ⟨by simp, by simp, ?_⟩
  intro c hc
  rw [hopen c] at hc
  cases hc

/-- Witness of C10: `S1` and `S2` join, `S1` speaks, the writer of `S2` takes the
line, `S1` leaves and its departure is announced. -/
theorem outbox_open_under_protocol_witness :
    (broadcast demoHeap freshChans protocolSteps).isPanic = false ∧
      ∀ u ∈ (broadcast demoHeap freshChans protocolSteps).state.users,
        ((broadcast demoHeap freshChans protocolSteps).state.chans
          (demoHeap u).MsgChan).closed = false :=
  outbox_open_under_protocol demoHeap freshChans protocolSteps []
    (fun _ _ h => h) (fun _ => rfl) (by decide)

/-! ## C5: the events one connection submits -/

theorem string_append_left_cancel (a b c : String) (h : a ++ b = a ++ c) : b = c := by
  have h1 := congrArg String.data h
  simp only [String.data_append] at h1
  exact String.ext (List.append_cancel_left h1)

theorem chat_ne_left (id line : String) :
    id ++ ": " ++ line ≠ id ++ " has left the chat room!" := by
  intro h
  rw [String.append_assoc] at h
  have h1 := congrArg String.data (string_append_left_cancel _ _ _ h)
  simp only [String.data_append] at h1
  simp at h1

theorem entered_ne_left (id : String) :
    id ++ " has entered the chat room!" ≠ id ++ " has left the chat room!" := by
  intro h
  have h1 := string_append_left_cancel _ _ _ h
  revert h1
  decide

theorem submittedEvents_readLoop (user : User) (lines : List String) :
    submittedEvents (readLoop user lines) =
      lines.map (fun line => Event.message ⟨user.ID, user.ID ++ ": " ++ line⟩) := by
  induction lines with
  | nil => rfl
  | cons line rest ih =>
    simp only [readLoop, submittedEvents, List.filterMap_cons, Action.event, List.map_cons]
    exact congrArg _ ih

theorem count_left_in_chat (id : String) (lines : List String) :
    (lines.map (fun line => Event.message ⟨id, id ++ ": " ++ line⟩)).count
      (.message ⟨id, id ++ " has left the chat room!"⟩) = 0 := by
  rw [List.count_eq_zero]
  intro h
  obtain ⟨line, _, hl⟩ := List.mem_map.1 h
  simp only [Event.message.injEq, Message.mk.injEq, true_and] at hl
  exact chat_ne_left id line hl

theorem countP_map_message (f : String → Message) (lines : List String) (p : Event → Bool)
    (hp : ∀ m, p (.message m) = false) :
    (lines.map (fun line => Event.message (f line))).countP p = 0 := by
  rw [List.countP_eq_zero]
  intro e he
  obtain ⟨line, _, hl⟩ := List.mem_map.1 he
  rw [← hl, hp]
  simp

/-- C5: for every session (address, id, outbox) and every finite list of inbound
lines, `handleConn` puts `Welcome <id> to chat room!` on the session's own outbox
before it submits anything to the registry, and what it submits is, in this order,
`Broadcast(id, "<id> has entered the chat room!")`, `Join(session)`,
`Broadcast(id, "<id>: <line>")` for each line in input order, `Leave(session)`,
`Broadcast(id, "<id> has left the chat room!")`; so it submits exactly one Join,
exactly one Leave and exactly one "has left" broadcast, the Leave after the Join
and before the "has left" broadcast. -/
theorem handleConn_trace (addr : Nat) (user : User) (lines : List String) :
    (∃ rest, handleConn addr user lines =
        .goSendMessage user.MsgChan ::
        .toOutbox user.MsgChan ("Welcome " ++ user.ID ++ " to chat room!") :: rest ∧
      submittedEvents rest = submittedEvents (handleConn addr user lines)) ∧
    submittedEvents (handleConn addr user lines) =
      [.message ⟨user.ID, user.ID ++ " has entered the chat room!"⟩, .entering addr]
      ++ lines.map (fun line => Event.message ⟨user.ID, user.ID ++ ": " ++ line⟩)
      ++ [.leaving addr, .message ⟨user.ID, user.ID ++ " has left the chat room!"⟩] ∧
    (submittedEvents (handleConn addr user lines)).countP Event.isEntering = 1 ∧
    (submittedEvents (handleConn addr user lines)).countP Event.isLeaving = 1 ∧
    (submittedEvents (handleConn addr user lines)).count
      (.message ⟨user.ID, user.ID ++ " has left the chat room!"⟩) = 1 := by
  have hev : submittedEvents (handleConn addr user lines) =
      [.message ⟨user.ID, user.ID ++ " has entered the chat room!"⟩, .entering addr]
      ++ lines.map (fun line => Event.message ⟨user.ID, user.ID ++ ": " ++ line⟩)
      ++ [.leaving addr, .message ⟨user.ID, user.ID ++ " has left the chat room!"⟩] := by
    simp only [handleConn, submittedEvents, List.filterMap_append]
    have := submittedEvents_readLoop user lines
    simp only [submittedEvents] at this
    rw [this]
    rfl
  refine ⟨⟨_, rfl, rfl⟩, hev, ?_, ?_, ?_⟩
  · rw [hev]
    simp only [List.countP_append, countP_map_message _ lines Event.isEntering (fun _ => rfl)]
    rfl
  · rw [hev]
    simp only [List.countP_append, countP_map_message _ lines Event.isLeaving (fun _ => rfl)]
    rfl
  · rw [hev]
    simp only [List.count_append, count_left_in_chat]
    have hne := entered_ne_left user.ID
    simp [List.count_cons, hne]

/-! ## C8: what the writer writes -/

theorem linesOf_append (a b : List String) : linesOf (a ++ b) = linesOf a ++ linesOf b := by
  induction a with
  | nil => simp [linesOf]
  | cons m rest ih => simp [linesOf, ih, String.append_assoc]

theorem joinOf_append (a b : List String) : joinOf (a ++ b) = joinOf a ++ joinOf b := by
  induction a with
  | nil => simp [joinOf]
  | cons m rest ih => simp [joinOf, ih, String.append_assoc]

/-- A write adds to the connection an initial part of the bytes, and nothing else. -/
theorem write_initial (c : Conn) (bytes : String) (fault : Option Nat) :
    ∃ piece, (c.write bytes fault).out = c.out ++ piece ∧ InitialPart piece bytes ∧
      (c.write bytes fault).closed = c.closed := by
  rcases c with ⟨out, closed⟩
  cases closed with
  | true => exact ⟨"", by simp [Conn.write], ⟨bytes, by simp⟩, by simp [Conn.write]⟩
  | false =>
    cases fault with
    | none => exact ⟨bytes, by simp [Conn.write], ⟨"", by simp⟩, by simp [Conn.write]⟩
    | some k =>
      refine ⟨⟨bytes.data.take k⟩, by simp [Conn.write], ⟨⟨bytes.data.drop k⟩, ?_⟩,
        by simp [Conn.write]⟩
      apply String.ext
      simp [String.data_append]

theorem pipeInv_init (cap : Nat) (msgs : List String) : PipeInv msgs (Pipe.init cap msgs) := by
  refine ⟨⟨[], ?_, ?_, ?_⟩, ?_, ?_⟩ <;> simp [Pipe.init, Chan.make, joinOf]

theorem pipeInv_turn (msgs : List String) (p : Pipe) (t : Turn) (h : PipeInv msgs p) :
    PipeInv msgs (p.turn t) := by
  rcases p with ⟨todo, ⟨⟨buf, cap, closed⟩, conn, ret⟩⟩
  simp only [PipeInv, Accounted] at h ⊢
  obtain ⟨⟨log, ha1, ha2, ha3⟩, h2, h3⟩ := h
  cases t with
  | closeConn => exact ⟨⟨log, ha1, ha2, ha3⟩, h2, h3⟩
  | writer fault =>
    cases ret with
    | true => exact ⟨⟨log, ha1, ha2, ha3⟩, h2, h3⟩
    | false =>
      cases buf with
      | nil =>
        cases closed with
        | true => exact ⟨⟨log, ha1, ha2, ha3⟩, h2, fun _ => ⟨rfl, rfl⟩⟩
        | false => exact ⟨⟨log, ha1, ha2, ha3⟩, h2, h3⟩
      | cons v rest =>
        obtain ⟨piece, hp1, hp2, _⟩ := write_initial conn (v ++ "\n") fault
        refine ⟨⟨log ++ [(piece, v)], ?_, ?_, ?_⟩, h2, ?_⟩
        · rw [← ha1]
          simp [Pipe.turn, sendMessageTurn, Chan.recv]
        · intro e he
          rcases List.mem_append.1 he with h | h
          · exact ha2 e h
          · simp only [List.mem_singleton] at h
            subst h
            exact hp2
        · simp only [Pipe.turn, sendMessageTurn, Chan.recv, Bool.false_eq_true, if_false]
          rw [hp1, ha3]
          simp [joinOf_append, joinOf]
        · simp [Pipe.turn, sendMessageTurn, Chan.recv]
  | producer =>
    cases todo with
    | nil =>
      cases closed with
      | true => exact ⟨⟨log, ha1, ha2, ha3⟩, h2, h3⟩
      | false =>
        refine ⟨⟨log, ha1, ha2, ha3⟩, fun _ => rfl, ?_⟩
        intro hr
        have := (h3 hr).1
        cases this
    | cons m rest =>
      cases closed with
      | true => exact ⟨⟨log, ha1, ha2, ha3⟩, h2, h3⟩
      | false =>
        by_cases hroom : buf.length < cap
        · have hs : Chan.send ⟨buf, cap, false⟩ m = .sent ⟨buf ++ [m], cap, false⟩ := by
            simp [Chan.send, Chan.push, hroom]
          simp only [Pipe.turn, hs]
          refine ⟨⟨log, ?_, ha2, ha3⟩, by simp, ?_⟩
          · rw [← ha1]
            simp
          · intro hr
            have := (h3 hr).1
            cases this
        · have hs : Chan.send ⟨buf, cap, false⟩ m = .wait := by
            simp [Chan.send, hroom]
          simp only [Pipe.turn, hs]
          exact ⟨⟨log, ha1, ha2, ha3⟩, h2, h3⟩

theorem pipeInv_run (msgs : List String) (sched : List Turn) (p : Pipe) (h : PipeInv msgs p) :
    PipeInv msgs (p.run sched) := by
  induction sched generalizing p with
  | nil => exact h
  | cons t rest ih => exact ih (p.turn t) (pipeInv_turn msgs p t h)

theorem cleanInv_turn (msgs : List String) (p : Pipe) (t : Turn) (ht : t.clean = true)
    (h : CleanInv msgs p) : CleanInv msgs (p.turn t) := by
  rcases p with ⟨todo, ⟨⟨buf, cap, closed⟩, ⟨out, cclosed⟩, ret⟩⟩
  simp only [CleanInv] at h ⊢
  obtain ⟨hc, h1⟩ := h
  have hc1 : cclosed = false := hc
  subst hc1
  cases t with
  | closeConn => simp [Turn.clean] at ht
  | writer fault =>
    cases fault with
    | some k => simp [Turn.clean] at ht
    | none =>
      cases ret with
      | true => exact ⟨rfl, h1⟩
      | false =>
        cases buf with
        | nil => cases closed <;> exact ⟨rfl, h1⟩
        | cons v rest =>
          refine ⟨by simp [Pipe.turn, sendMessageTurn, Chan.recv, Conn.write], ?_⟩
          rw [← h1]
          simp [Pipe.turn, sendMessageTurn, Chan.recv, Conn.write, linesOf,
            String.append_assoc]
  | producer =>
    cases todo with
    | nil => cases closed <;> exact ⟨rfl, h1⟩
    | cons m rest =>
      cases closed with
      | true => exact ⟨rfl, h1⟩
      | false =>
        by_cases hroom : buf.length < cap
        · have hs : Chan.send ⟨buf, cap, false⟩ m = .sent ⟨buf ++ [m], cap, false⟩ := by
            simp [Chan.send, Chan.push, hroom]
          simp only [Pipe.turn, hs]
          refine ⟨trivial, ?_⟩
          rw [← h1]
          simp [linesOf, linesOf_append, String.append_assoc]
        · have hs : Chan.send ⟨buf, cap, false⟩ m = .wait := by
            simp [Chan.send, hroom]
          simp only [Pipe.turn, hs]
          exact ⟨trivial, h1⟩

theorem cleanInv_run (msgs : List String) (sched : List Turn) (p : Pipe)
    (hs : sched.all Turn.clean = true) (h : CleanInv msgs p) : CleanInv msgs (p.run sched) := by
  induction sched generalizing p with
  | nil => exact h
  | cons t rest ih =>
    simp only [List.all_cons, Bool.and_eq_true] at hs
    exact ih (p.turn t) hs.2 (cleanInv_turn msgs p t hs.1 h)

/-- Once the connection is closed nothing changes it any more. -/
theorem closed_conn_run (sched : List Turn) (p : Pipe) (hc : p.w.conn.closed = true) :
    (p.run sched).w.conn = p.w.conn := by
  induction sched generalizing p with
  | nil => rfl
  | cons t rest ih =>
    have hturn : (p.turn t).w.conn = p.w.conn := by
      rcases p with ⟨todo, ⟨⟨buf, cap, closed⟩, ⟨out, cclosed⟩, ret⟩⟩
      have hc1 : cclosed = true := hc
      subst hc1
      cases t with
      | closeConn => rfl
      | writer fault =>
        cases ret <;> cases buf <;> cases closed <;>
          simp [Pipe.turn, sendMessageTurn, Chan.recv, Conn.write]
      | producer =>
        cases todo with
        | nil => cases closed <;> simp [Pipe.turn, Chan.close]
        | cons m rest =>
          cases closed with
          | true => simp [Pipe.turn, Chan.send]
          | false =>
            by_cases hroom : buf.length < cap <;> simp [Pipe.turn, Chan.send, Chan.push, hroom]
    have hrun : p.run (t :: rest) = (p.turn t).run rest := rfl
    rw [hrun, ih (p.turn t) (by rw [hturn]; exact hc), hturn]

theorem core_turn (p q : Pipe) (t : Turn) (h : p.core = q.core) :
    (p.turn t).core = (q.turn t).core := by
  rcases p with ⟨todo, ⟨ch, conn, ret⟩⟩
  rcases q with ⟨todo1, ⟨ch1, conn1, ret1⟩⟩
  simp only [Pipe.core, Prod.mk.injEq] at h
  obtain ⟨h1, h2, h3⟩ := h
  subst h1; subst h2; subst h3
  cases t with
  | closeConn => rfl
  | writer fault =>
    simp only [Pipe.turn, sendMessageTurn, Pipe.core]
    cases ret with
    | true => rfl
    | false => cases hr : ch.recv <;> simp [hr]
  | producer =>
    simp only [Pipe.turn, Pipe.core]
    cases todo with
    | nil => cases hc : ch.close <;> simp [hc]
    | cons m rest => cases hs : ch.send m <;> simp [hs]

theorem work_core (p q : Pipe) (h : p.core = q.core) : p.work = q.work := by
  simp only [Pipe.core, Prod.mk.injEq] at h
  simp [Pipe.work, h.1, h.2.1, h.2.2]

theorem cap_turn (p : Pipe) (t : Turn) : (p.turn t).w.msgChan.cap = p.w.msgChan.cap := by
  rcases p with ⟨todo, ⟨⟨buf, cap, closed⟩, conn, ret⟩⟩
  cases t with
  | closeConn => rfl
  | writer fault =>
    cases ret <;> cases buf <;> cases closed <;> simp [Pipe.turn, sendMessageTurn, Chan.recv]
  | producer =>
    cases todo with
    | nil => cases closed <;> simp [Pipe.turn, Chan.close]
    | cons m rest =>
      cases closed with
      | true => simp [Pipe.turn, Chan.send]
      | false =>
        by_cases hroom : buf.length < cap <;> simp [Pipe.turn, Chan.send, Chan.push, hroom]

theorem cap_run (sched : List Turn) (p : Pipe) :
    (p.run sched).w.msgChan.cap = p.w.msgChan.cap := by
  induction sched generalizing p with
  | nil => rfl
  | cons t rest ih =>
    have := ih (p.turn t)
    rw [cap_turn] at this
    exact this

/-- A turn never adds work, and a turn that removes none leaves the outbox, the
messages to place and the writer's state as they were. -/
theorem work_turn (p : Pipe) (t : Turn) :
    (p.turn t).work ≤ p.work ∧ ((p.turn t).work = p.work → (p.turn t).core = p.core) := by
  rcases p with ⟨todo, ⟨⟨buf, cap, closed⟩, conn, ret⟩⟩
  cases t with
  | closeConn => exact ⟨le_refl _, fun _ => rfl⟩
  | writer fault =>
    cases ret with
    | true => simp [Pipe.turn, sendMessageTurn]
    | false =>
      cases buf with
      | nil => cases closed <;> simp [Pipe.turn, sendMessageTurn, Chan.recv, Pipe.work]
      | cons v rest =>
        simp only [Pipe.turn, sendMessageTurn, Chan.recv, Pipe.work, List.length_cons]
        constructor
        · simp only [Bool.false_eq_true, if_false]; omega
        · simp only [Bool.false_eq_true, if_false]; intro h; omega
  | producer =>
    cases todo with
    | nil =>
      cases closed with
      | true => simp [Pipe.turn, Chan.close]
      | false => simp [Pipe.turn, Chan.close, Pipe.work]
    | cons m rest =>
      cases closed with
      | true => simp [Pipe.turn, Chan.send]
      | false =>
        by_cases hroom : buf.length < cap
        · have hs : Chan.send ⟨buf, cap, false⟩ m = .sent ⟨buf ++ [m], cap, false⟩ := by
            simp [Chan.send, Chan.push, hroom]
          simp only [Pipe.turn, hs, Pipe.work, List.length_cons, List.length_append,
            List.length_singleton, List.length_nil, Bool.false_eq_true, if_false]
          constructor
          · omega
          · intro h; omega
        · have hs : Chan.send ⟨buf, cap, false⟩ m = .wait := by
            simp [Chan.send, hroom]
          simp [Pipe.turn, hs]

theorem work_run (sched : List Turn) (p : Pipe) : (p.run sched).work ≤ p.work := by
  induction sched generalizing p with
  | nil => exact le_refl _
  | cons t rest ih => exact le_trans (ih (p.turn t)) (work_turn p t).1

/-- A schedule that holds a turn able to remove work removes work. -/
theorem work_drops (r : List Turn) (p : Pipe)
    (h : ∃ t ∈ r, (p.turn t).work < p.work) : (p.run r).work < p.work := by
  induction r generalizing p with
  | nil =>
    obtain ⟨t, ht, _⟩ := h
    cases ht
  | cons t rest ih =>
    have hrun : p.run (t :: rest) = (p.turn t).run rest := rfl
    rw [hrun]
    have h1 := work_turn p t
    by_cases hlt : (p.turn t).work < p.work
    · exact lt_of_le_of_lt (work_run rest _) hlt
    · have heq : (p.turn t).work = p.work := le_antisymm h1.1 (not_lt.1 hlt)
      have hcore := h1.2 heq
      obtain ⟨t1, ht1, heff⟩ := h
      rcases List.mem_cons.1 ht1 with hh | hh
      · subst hh; exact absurd heff hlt
      · have : ((p.turn t).turn t1).work < (p.turn t).work := by
          rw [work_core _ _ (core_turn _ _ t1 hcore), heq]
          exact heff
        have := ih (p.turn t) ⟨t1, hh, this⟩
        omega

/-- While the writer has not returned, one of the two tasks can remove work. -/
theorem pipe_progress (msgs : List String) (p : Pipe) (hinv : PipeInv msgs p)
    (hcap : 0 < p.w.msgChan.cap) (hret : p.w.returned = false) :
    (p.turn .producer).work < p.work ∨ ∀ fault, (p.turn (.writer fault)).work < p.work := by
  rcases p with ⟨todo, ⟨⟨buf, cap, closed⟩, conn, ret⟩⟩
  have hcap1 : 0 < cap := hcap
  have hret1 : ret = false := hret
  subst hret1
  cases buf with
  | cons v rest =>
    right
    intro fault
    simp [Pipe.turn, sendMessageTurn, Chan.recv, Pipe.work]
  | nil =>
    cases closed with
    | true =>
      right
      intro fault
      simp [Pipe.turn, sendMessageTurn, Chan.recv, Pipe.work]
    | false =>
      left
      cases todo with
      | nil => simp [Pipe.turn, Chan.close, Pipe.work]
      | cons m rest =>
        have hs : Chan.send ⟨[], cap, false⟩ m = .sent ⟨[] ++ [m], cap, false⟩ := by
          simp [Chan.send, Chan.push, hcap1]
        simp only [Pipe.turn, hs, Pipe.work, List.length_cons, List.length_append,
          List.length_singleton, List.length_nil, Bool.false_eq_true, if_false]
        omega

theorem work_zero_of_returned (msgs : List String) (p : Pipe) (hinv : PipeInv msgs p)
    (hret : p.w.returned = true) : p.work = 0 := by
  obtain ⟨_, h2, h3⟩ := hinv
  obtain ⟨hc, hb⟩ := h3 hret
  simp [Pipe.work, h2 hc, hb, hc, hret]

/-- A fair round removes at least one unit of work, if any is left. -/
theorem work_round (msgs : List String) (p : Pipe) (r : List Turn) (hinv : PipeInv msgs p)
    (hcap : 0 < p.w.msgChan.cap)
    (hfair : Turn.producer ∈ r ∧ ∃ fault, Turn.writer fault ∈ r) :
    (p.run r).work ≤ p.work - 1 := by
  cases hret : p.w.returned with
  | true =>
    have := work_zero_of_returned msgs p hinv hret
    have h1 := work_run r p
    omega
  | false =>
    have hdrop : (p.run r).work < p.work := by
      apply work_drops
      obtain ⟨hprod, fault, hwr⟩ := hfair
      rcases pipe_progress msgs p hinv hcap hret with h | h
      · exact ⟨_, hprod, h⟩
      · exact ⟨_, hwr, h fault⟩
    omega

theorem run_append (p : Pipe) (a b : List Turn) : p.run (a ++ b) = (p.run a).run b := by
  simp [Pipe.run, List.foldl_append]

/-- Under a fair schedule with at least as many rounds as units of work, the writer
has returned. -/
theorem fair_returns (msgs : List String) (rounds : List (List Turn)) (p : Pipe)
    (hinv : PipeInv msgs p) (hcap : 0 < p.w.msgChan.cap) (hfair : fairRounds rounds)
    (hlen : p.work ≤ rounds.length) : (p.run rounds.flatten).w.returned = true := by
  induction rounds generalizing p with
  | nil =>
    simp only [List.length_nil, Nat.le_zero] at hlen
    cases hr : p.w.returned with
    | true => simpa [Pipe.run] using hr
    | false => simp [Pipe.work, hr] at hlen
  | cons r rest ih =>
    simp only [List.flatten_cons, run_append]
    have hw := work_round msgs p r hinv hcap (hfair r (List.mem_cons_self _ _))
    apply ih (p.run r) (pipeInv_run msgs r p hinv)
    · rw [cap_run]; exact hcap
    · exact fun r1 hr1 => hfair r1 (List.mem_cons_of_mem _ hr1)
    · simp only [List.length_cons] at hlen
      omega

/-- Once the outbox is closed the writer, left alone, drains it and returns within
one turn per queued item plus one, whatever the connection does with its writes. -/
theorem sendMessage_closed (w : Writer) (faults : List (Option Nat))
    (hc : w.msgChan.closed = true) (hq : w.returned = true → w.msgChan.buf = [])
    (hlen : faults.length = w.msgChan.buf.length + 1) :
    (sendMessage faults w).returned = true ∧ (sendMessage faults w).msgChan.buf = [] := by
  rcases w with ⟨⟨buf, cap, closed⟩, conn, ret⟩
  have hc1 : closed = true := hc
  subst hc1
  induction buf generalizing conn faults with
  | nil =>
    cases faults with
    | nil => simp at hlen
    | cons f rest =>
      cases rest with
      | nil => cases ret <;> simp [sendMessage, sendMessageTurn, Chan.recv]
      | cons g more => simp at hlen
  | cons v rest ih =>
    cases faults with
    | nil => simp at hlen
    | cons f more =>
      simp only [List.length_cons, Nat.add_right_cancel_iff] at hlen
      cases ret with
      | true => simp at hq
      | false =>
        have := ih more (conn.write (v ++ "\n") f) rfl (by simp) hlen
        simp only [sendMessage, sendMessageTurn, Chan.recv, Bool.false_eq_true, if_false]
        exact this

/-- C8 (as amended): for every finite list of messages `m1..mk` placed on a
session's outbox (of capacity `cap > 0`) and followed by its close, under every
interleaving of the producer, `sendMessage` and closes of the connection:
`sendMessage` takes each item once, in outbox order, and for each item the
connection receives an initial part of the item's newline-terminated line (the
result of `Fprintln` is dropped); while the connection is open and no write
fails, what is written, queued and still to be placed adds up to
`m1 ++ "\n" ++ ... ++ mk ++ "\n"`, which is exactly what a returned writer has
written; once the connection is closed nothing more is written; once the outbox is
closed `sendMessage` drains it and returns within one turn per queued item plus
one; and under every fair schedule of `2k + 2` rounds it has returned. -/
theorem sendMessage_writes_outbox (cap : Nat) (msgs : List String) (hcap : 0 < cap) :
    (∀ sched,
      (∃ log : List (String × String),
        log.map Prod.snd ++ (Pipe.after cap msgs sched).w.msgChan.buf
          ++ (Pipe.after cap msgs sched).todo = msgs ∧
        (∀ e ∈ log, InitialPart e.1 (e.2 ++ "\n")) ∧
        (Pipe.after cap msgs sched).w.conn.out = joinOf (log.map Prod.fst)) ∧
      (sched.all Turn.clean = true →
        (Pipe.after cap msgs sched).w.conn.out
          ++ linesOf (Pipe.after cap msgs sched).w.msgChan.buf
          ++ linesOf (Pipe.after cap msgs sched).todo = linesOf msgs ∧
        ((Pipe.after cap msgs sched).w.returned = true →
          (Pipe.after cap msgs sched).w.conn.out = linesOf msgs)) ∧
      ((Pipe.after cap msgs sched).w.returned = true →
        (Pipe.after cap msgs sched).w.msgChan.closed = true ∧
        (Pipe.after cap msgs sched).w.msgChan.buf = [] ∧
        (Pipe.after cap msgs sched).todo = []) ∧
      ((Pipe.after cap msgs sched).w.conn.closed = true →
        ∀ more, ((Pipe.after cap msgs sched).run more).w.conn
          = (Pipe.after cap msgs sched).w.conn) ∧
      ((Pipe.after cap msgs sched).w.msgChan.closed = true →
        ∀ faults, faults.length = (Pipe.after cap msgs sched).w.msgChan.buf.length + 1 →
          (sendMessage faults (Pipe.after cap msgs sched).w).returned = true ∧
          (sendMessage faults (Pipe.after cap msgs sched).w).msgChan.buf = [])) ∧
    (∀ rounds, fairRounds rounds → 2 * msgs.length + 2 ≤ rounds.length →
      (Pipe.after cap msgs rounds.flatten).w.returned = true ∧
      (rounds.flatten.all Turn.clean = true →
        (Pipe.after cap msgs rounds.flatten).w.conn.out = linesOf msgs)) := by
  have hclean : ∀ sched, sched.all Turn.clean = true →
      (Pipe.after cap msgs sched).w.conn.out
        ++ linesOf (Pipe.after cap msgs sched).w.msgChan.buf
        ++ linesOf (Pipe.after cap msgs sched).todo = linesOf msgs ∧
      ((Pipe.after cap msgs sched).w.returned = true →
        (Pipe.after cap msgs sched).w.conn.out = linesOf msgs) := by
    intro sched hs
    have hinv := pipeInv_run msgs sched _ (pipeInv_init cap msgs)
    have hcl := cleanInv_run msgs sched (Pipe.init cap msgs) hs
      ⟨rfl, by simp [Pipe.init, Chan.make, linesOf]⟩
    refine ⟨hcl.2, fun hr => ?_⟩
    obtain ⟨hc, hb⟩ := hinv.2.2 hr
    have h1 := hcl.2
    simp only [Pipe.after]
    rw [hb, hinv.2.1 hc] at h1
    simpa [linesOf] using h1
  constructor
  · intro sched
    have hinv := pipeInv_run msgs sched _ (pipeInv_init cap msgs)
    refine ⟨hinv.1, hclean sched, ?_, ?_, ?_⟩
    · intro hr
      obtain ⟨hc, hb⟩ := hinv.2.2 hr
      exact ⟨hc, hb, hinv.2.1 hc⟩
    · exact fun hc more => closed_conn_run more _ hc
    · intro hc faults hlen
      exact sendMessage_closed _ faults hc (fun hr => (hinv.2.2 hr).2) hlen
  · intro rounds hfair hlen
    have hr := fair_returns msgs rounds (Pipe.init cap msgs) (pipeInv_init cap msgs)
      (by simpa [Pipe.init, Chan.make] using hcap) hfair
      (by simpa [Pipe.work, Pipe.init, Chan.make] using hlen)
    exact ⟨hr, fun hs => (hclean _ hs).2 hr⟩

/-- Witness of C8 (as amended): the two lines `a`, `b` on an outbox of capacity 8. -/
theorem sendMessage_writes_outbox_witness :
    (0 < 8) ∧
    (∀ rounds, fairRounds rounds → 2 * ["a", "b"].length + 2 ≤ rounds.length →
      (Pipe.after 8 ["a", "b"] rounds.flatten).w.returned = true ∧
      (rounds.flatten.all Turn.clean = true →
        (Pipe.after 8 ["a", "b"] rounds.flatten).w.conn.out = linesOf ["a", "b"])) :=
  ⟨by decide, (sendMessage_writes_outbox 8 ["a", "b"] (by decide)).2⟩

/-- C8 as stated fails: the lines `a`, `b` are placed on the outbox before it is
closed; `a` is written, then the connection is closed (the watchdog's or the
handler's `conn.Close()`) while `b` is still to come; the writer takes `b`, its
write fails and the error is dropped; the writer returns with the outbox closed and
empty, having written `a` and its newline only. -/
theorem sendMessage_writes_outbox_counterexample :
    (Pipe.after 8 ["a", "b"] closedEarly).w.returned = true ∧
    (Pipe.after 8 ["a", "b"] closedEarly).w.msgChan = ⟨[], 8, true⟩ ∧
    (Pipe.after 8 ["a", "b"] closedEarly).todo = [] ∧
    (Pipe.after 8 ["a", "b"] closedEarly).w.conn.out = "a\n" ∧
    linesOf ["a", "b"] = "a\nb\n" ∧
    (Pipe.after 8 ["a", "b"] closedEarly).w.conn.out ≠ linesOf ["a", "b"] := by
  decide

/-! ## C6 and C7: the idle watchdog -/

theorem watchdogStep_now (keepStale : Bool) (d : Nat) (w w1 : Watchdog) (tk : Tick)
    (h : watchdogStep keepStale d w tk = some w1) : w.now ≤ tk.time ∧ w1.now = tk.time := by
  cases tk with
  | fire t =>
    simp only [watchdogStep] at h
    cases hdue : w.timer.due with
    | none => rw [hdue] at h; cases h
    | some due =>
      rw [hdue] at h
      simp only at h
      split at h
      · rename_i hc
        cases h
        exact ⟨hc.1, rfl⟩
      · cases h
  | active t =>
    simp only [watchdogStep] at h
    split at h
    · rename_i hc
      cases h
      exact ⟨hc, rfl⟩
    · cases h
  | expire t =>
    simp only [watchdogStep] at h
    split at h
    · rename_i hc
      cases h
      exact ⟨hc.1, rfl⟩
    · cases h

theorem watchdogRun_cons (keepStale : Bool) (d : Nat) (w w2 : Watchdog) (tk : Tick)
    (rest : List Tick) (h : watchdogRun keepStale d w (tk :: rest) = some w2) :
    ∃ w1, watchdogStep keepStale d w tk = some w1 ∧ watchdogRun keepStale d w1 rest = some w2 := by
  simp only [watchdogRun] at h
  cases hs : watchdogStep keepStale d w tk with
  | none => rw [hs] at h; cases h
  | some w1 => rw [hs] at h; exact ⟨w1, rfl, h⟩

/-- Once the instant `prev + d` is reached, no activity signal that keeps the gap
below `d` can follow. -/
theorem no_active_after_due (keepStale : Bool) (d prev : Nat) (ticks : List Tick)
    (w0 w : Watchdog) (hrun : watchdogRun keepStale d w0 ticks = some w)
    (hnow : prev + d ≤ w0.now) (hgaps : gapsBelow d prev ticks = true) :
    lastActive prev ticks = prev := by
  induction ticks generalizing w0 with
  | nil => rfl
  | cons tk rest ih =>
    obtain ⟨w1, h1, h2⟩ := watchdogRun_cons keepStale d w0 w tk rest hrun
    obtain ⟨hle, heq⟩ := watchdogStep_now keepStale d w0 w1 tk h1
    cases tk with
    | active t =>
      simp only [gapsBelow, Bool.and_eq_true, decide_eq_true_eq] at hgaps
      simp only [Tick.time] at hle
      omega
    | fire t =>
      simp only [gapsBelow] at hgaps
      simp only [lastActive]
      exact ih w1 h2 (by simp only [Tick.time] at hle heq; omega) hgaps
    | expire t =>
      simp only [gapsBelow] at hgaps
      simp only [lastActive]
      exact ih w1 h2 (by simp only [Tick.time] at hle heq; omega) hgaps

/-- While activity signals keep their gaps below `d` and nothing later than the last
of them is looked at, a watchdog whose timer is armed for `prev + d` sees activity
signals only. -/
theorem armed_run (keepStale : Bool) (d prev : Nat) (hd : 0 < d) (ticks : List Tick)
    (w0 w : Watchdog) (htimer : w0.timer = ⟨some (prev + d), false⟩) (hcl : w0.closes = 0)
    (hrun : watchdogRun keepStale d w0 ticks = some w)
    (hgaps : gapsBelow d prev ticks = true)
    (hlast : ∀ tk ∈ ticks, tk.time ≤ lastActive prev ticks) :
    w.closes = 0 ∧ (∀ tk ∈ ticks, tk.isActive = true) ∧
      w.timer = ⟨some (lastActive prev ticks + d), false⟩ := by
  induction ticks generalizing w0 prev with
  | nil =>
    simp only [watchdogRun, Option.some.injEq] at hrun
    subst hrun
    exact ⟨hcl, by simp, htimer⟩
  | cons tk rest ih =>
    obtain ⟨w1, h1, h2⟩ := watchdogRun_cons keepStale d w0 w tk rest hrun
    obtain ⟨hle, heq⟩ := watchdogStep_now keepStale d w0 w1 tk h1
    cases tk with
    | active t =>
      simp only [gapsBelow, Bool.and_eq_true, decide_eq_true_eq] at hgaps
      simp only [lastActive] at hlast ⊢
      have hw1 : w1.timer = ⟨some (t + d), false⟩ ∧ w1.closes = 0 := by
        simp only [watchdogStep] at h1
        split at h1
        · cases h1
          simp [Timer.reset, htimer, hcl]
        · cases h1
      obtain ⟨r1, r2, r3⟩ := ih t w1 hw1.1 hw1.2 h2 hgaps.2
        (fun tk htk => hlast tk (List.mem_cons_of_mem _ htk))
      refine ⟨r1, ?_, r3⟩
      intro tk htk
      rcases List.mem_cons.1 htk with h | h
      · subst h; rfl
      · exact r2 tk h
    | fire t =>
      exfalso
      simp only [gapsBelow] at hgaps
      have hdue : prev + d ≤ t := by
        simp only [watchdogStep, htimer] at h1
        split at h1
        · rename_i hc; exact hc.2
        · cases h1
      have hno := no_active_after_due keepStale d prev rest w1 w h2
        (by simp only [Tick.time] at heq; omega) hgaps
      have := hlast (.fire t) (List.mem_cons_self _ _)
      simp only [lastActive, Tick.time, hno] at this
      omega
    | expire t =>
      exfalso
      simp only [watchdogStep, htimer] at h1
      simp at h1

/-- C6: in the idle watchdog with timeout `d > 0` (5 minutes in the code), started
at instant `start`, for every number of activity signals each coming less than `d`
after the previous one (the first less than `d` after the start), and every
sequence of ticks that the watchdog can go through up to the last of those
signals: the timer never fires, the watchdog never takes the expiry case and never
closes the connection, and the timer ends armed for `d` after the last signal. -/
theorem activity_keeps_alive (keepStale : Bool) (d start : Nat) (ticks : List Tick)
    (w : Watchdog) (hd : 0 < d)
    (hrun : watchdog keepStale d start ticks = some w)
    (hgaps : gapsBelow d start ticks = true)
    (hlast : ∀ tk ∈ ticks, tk.time ≤ lastActive start ticks) :
    w.closes = 0 ∧ (∀ tk ∈ ticks, tk.isActive = true) ∧
      w.timer = ⟨some (lastActive start ticks + d), false⟩ :=
  armed_run keepStale d start hd ticks ⟨start, Timer.new start d, 0⟩ w rfl rfl hrun hgaps hlast

/-- Witness of C6: three lines, each four minutes after the previous one. -/
theorem activity_keeps_alive_witness :
    (0 < idleTimeout) ∧
    (watchdog true idleTimeout 0 [.active (4 * Minute), .active (8 * Minute),
      .active (12 * Minute)] = some ⟨12 * Minute, ⟨some (17 * Minute), false⟩, 0⟩) ∧
    (gapsBelow idleTimeout 0 [.active (4 * Minute), .active (8 * Minute),
      .active (12 * Minute)] = true) ∧
    ((⟨12 * Minute, ⟨some (17 * Minute), false⟩, 0⟩ : Watchdog).closes = 0 ∧
      (∀ tk ∈ [Tick.active (4 * Minute), .active (8 * Minute), .active (12 * Minute)],
        tk.isActive = true) ∧
      (⟨12 * Minute, ⟨some (17 * Minute), false⟩, 0⟩ : Watchdog).timer =
        ⟨some (lastActive 0 [.active (4 * Minute), .active (8 * Minute),
          .active (12 * Minute)] + idleTimeout), false⟩) :=
  ⟨by decide, by decide, by decide,
    activity_keeps_alive true idleTimeout 0
      [.active (4 * Minute), .active (8 * Minute), .active (12 * Minute)]
      ⟨12 * Minute, ⟨some (17 * Minute), false⟩, 0⟩ (by decide) (by decide) (by decide)
      (by decide)⟩

theorem watchdogStep_count (keepStale : Bool) (d : Nat) (w w1 : Watchdog) (tk : Tick)
    (h : watchdogStep keepStale d w tk = some w1) :
    w1.closes = w.closes + (if tk.isExpire then 1 else 0) ∧
      w1.closes + w1.timer.credit ≤
        w.closes + w.timer.credit + (if tk.isActive then 1 else 0) := by
  rcases w with ⟨now, ⟨due, pending⟩, closes⟩
  cases tk with
  | fire t =>
    cases due with
    | none => simp [watchdogStep] at h
    | some dl =>
      simp only [watchdogStep] at h
      split at h
      · cases h
        cases pending <;> simp [Timer.credit, Tick.isExpire, Tick.isActive]
      · cases h
  | active t =>
    simp only [watchdogStep] at h
    split at h
    · cases h
      cases pending <;> cases keepStale <;> cases due <;>
        simp [Timer.credit, Timer.reset, Tick.isExpire, Tick.isActive]
    · cases h
  | expire t =>
    simp only [watchdogStep] at h
    split at h
    · rename_i hc
      cases h
      have hp : pending = true := hc.2
      subst hp
      cases due <;> simp [Timer.credit, Tick.isExpire, Tick.isActive]
    · cases h

theorem watchdogRun_count (keepStale : Bool) (d : Nat) (ticks : List Tick) (w0 w : Watchdog)
    (h : watchdogRun keepStale d w0 ticks = some w) :
    w.closes = w0.closes + ticks.countP Tick.isExpire ∧
      w.closes + w.timer.credit ≤ w0.closes + w0.timer.credit + ticks.countP Tick.isActive := by
  induction ticks generalizing w0 with
  | nil =>
    simp only [watchdogRun, Option.some.injEq] at h
    subst h
    simp
  | cons tk rest ih =>
    obtain ⟨w1, h1, h2⟩ := watchdogRun_cons keepStale d w0 w tk rest h
    obtain ⟨c1, c2⟩ := watchdogStep_count keepStale d w0 w1 tk h1
    obtain ⟨r1, r2⟩ := ih w1 h2
    simp only [List.countP_cons]
    constructor <;> omega

/-- C7 (as amended): for every sequence of activity signals and timer expiries seen
by one session's idle watchdog, the watchdog forces the connection closed once per
expiry it sees, and at most once more than the number of activity signals it has
seen; it has no terminal state: after any such sequence, an expiry included, a
further activity signal is still taken and re-arms the timer for `d` later. -/
theorem watchdog_closes_bounded (keepStale : Bool) (d start : Nat) (ticks : List Tick)
    (w : Watchdog) (hrun : watchdog keepStale d start ticks = some w) :
    w.closes = ticks.countP Tick.isExpire ∧
    w.closes ≤ 1 + ticks.countP Tick.isActive ∧
    (∀ t, w.now ≤ t → ∃ w1, watchdogStep keepStale d w (.active t) = some w1 ∧
      w1.timer.due = some (t + d) ∧ w1.closes = w.closes) := by
  obtain ⟨r1, r2⟩ := watchdogRun_count keepStale d ticks _ w hrun
  refine ⟨by simpa using r1, ?_, ?_⟩
  · simp only [Timer.new, Timer.credit, Option.isSome_some, if_true] at r2
    simp only [Bool.false_eq_true, if_false] at r2
    omega
  · intro t ht
    exact ⟨⟨t, w.timer.reset keepStale t d, w.closes⟩, by simp [watchdogStep, ht], rfl, rfl⟩

/-- Witness of C7 (as amended): the run with two expiries. -/
theorem watchdog_closes_bounded_witness :
    (watchdog true idleTimeout 0 twoExpiries =
      some ⟨2 * idleTimeout + 1, ⟨none, false⟩, 2⟩) ∧
    ((⟨2 * idleTimeout + 1, ⟨none, false⟩, 2⟩ : Watchdog).closes =
        twoExpiries.countP Tick.isExpire ∧
      (⟨2 * idleTimeout + 1, ⟨none, false⟩, 2⟩ : Watchdog).closes ≤
        1 + twoExpiries.countP Tick.isActive ∧
      (∀ t, (⟨2 * idleTimeout + 1, ⟨none, false⟩, 2⟩ : Watchdog).now ≤ t →
        ∃ w1, watchdogStep true idleTimeout ⟨2 * idleTimeout + 1, ⟨none, false⟩, 2⟩
            (.active t) = some w1 ∧
          w1.timer.due = some (t + idleTimeout) ∧
          w1.closes = (⟨2 * idleTimeout + 1, ⟨none, false⟩, 2⟩ : Watchdog).closes)) :=
  ⟨by decide, watchdog_closes_bounded true idleTimeout 0 twoExpiries
    ⟨2 * idleTimeout + 1, ⟨none, false⟩, 2⟩ (by decide)⟩

/-- C7 as stated fails: the timer expires and the watchdog closes the connection;
an activity signal one nanosecond later is taken and re-arms the timer; five
minutes later the timer expires again and the watchdog closes the connection a
second time.  This holds whether or not `Reset` keeps a stale value. -/
theorem watchdog_closes_bounded_counterexample :
    (watchdog true idleTimeout 0 [.fire idleTimeout, .expire idleTimeout]).map
        (fun w => (w.closes, w.timer.due)) = some (1, none) ∧
    (watchdog true idleTimeout 0
        [.fire idleTimeout, .expire idleTimeout, .active (idleTimeout + 1)]).map
        (fun w => (w.closes, w.timer.due)) = some (1, some (2 * idleTimeout + 1)) ∧
    (watchdog true idleTimeout 0 twoExpiries).map (fun w => w.closes) = some 2 ∧
    (watchdog false idleTimeout 0 twoExpiries).map (fun w => w.closes) = some 2 := by
  decide

/-! ## C9: the order in which the registry processes what is submitted -/

theorem split_snoc {α : Type} (a b sub : List α) (x y : α) (h : sub ++ [y] = a ++ x :: b) :
    (b = [] ∧ a = sub ∧ x = y) ∨ (∃ b1, b = b1 ++ [y] ∧ sub = a ++ x :: b1) := by
  rcases List.eq_nil_or_concat b with hb | ⟨b1, z, hb⟩
  · subst hb
    left
    have := List.append_inj' h rfl
    simp only [List.cons.injEq, and_true] at this
    exact ⟨rfl, this.1.symm, this.2.symm⟩
  · subst hb
    right
    have h1 : sub ++ [y] = (a ++ x :: b1) ++ [z] := by simpa using h
    have := List.append_inj' h1 rfl
    simp only [List.cons.injEq, and_true] at this
    exact ⟨b1, by rw [this.2, List.concat_eq_append], this.1⟩

theorem orderOn_send (queue : List Message) (sub proc : List Event) (msg : Message)
    (h : OrderOn queue sub proc) :
    OrderOn (queue ++ [msg]) (sub ++ [.message msg]) proc := by
  obtain ⟨h1, h2, h3⟩ := h
  refine ⟨?_, ?_, ?_⟩
  · simp only [messagesOf, List.filter_append, List.map_append] at h1 ⊢
    rw [← List.append_assoc, h1]
    simp [Event.isMessage]
  · simp only [membershipOf, List.filter_append] at h2 ⊢
    rw [h2]
    simp [Event.isMessage]
  · intro a x b hsplit hx
    rcases split_snoc a b sub x _ hsplit with ⟨_, _, hxy⟩ | ⟨b1, _, hsub⟩
    · subst hxy; simp [Event.isMessage] at hx
    · exact h3 a x b1 hsub hx

theorem orderOn_sync (queue : List Message) (sub proc : List Event) (x : Event)
    (hx : x.isMessage = false) (h : OrderOn queue sub proc) :
    OrderOn queue (sub ++ [x]) (proc ++ [x]) := by
  obtain ⟨h1, h2, h3⟩ := h
  refine ⟨?_, ?_, ?_⟩
  · simp only [messagesOf, List.filter_append] at h1 ⊢
    simp only [List.filter_cons, hx, Bool.false_eq_true, if_false, List.filter_nil,
      List.append_nil]
    exact h1
  · simp only [membershipOf, List.filter_append] at h2 ⊢
    rw [h2]
  · intro a y b hsplit hy
    rcases split_snoc a b sub y x hsplit with ⟨hb, ha, hyx⟩ | ⟨b1, _, hsub⟩
    · subst hb; subst ha; subst hyx
      exact ⟨proc, [], rfl, h2, ⟨queue.map Event.message, h1⟩⟩
    · obtain ⟨pa, pb, hp, hm, hpre⟩ := h3 a y b1 hsub hy
      exact ⟨pa, pb ++ [x], by simp [hp], hm, hpre⟩

theorem orderOn_receive (queue : List Message) (sub proc : List Event) (msg : Message)
    (h : OrderOn (msg :: queue) sub proc) :
    OrderOn queue sub (proc ++ [.message msg]) := by
  obtain ⟨h1, h2, h3⟩ := h
  refine ⟨?_, ?_, ?_⟩
  · simp only [messagesOf, List.filter_append] at h1 ⊢
    rw [← h1]
    simp [Event.isMessage]
  · simp only [membershipOf, List.filter_append] at h2 ⊢
    rw [← h2]
    simp [Event.isMessage]
  · intro a x b hsplit hx
    obtain ⟨pa, pb, hp, hm, hpre⟩ := h3 a x b hsplit hx
    exact ⟨pa, pb ++ [.message msg], by simp [hp], hm, hpre⟩

theorem orderOn_move (s s1 : Intake) (m : Move) (hm : s.move m = some s1)
    (h : OrderOn s.messageChan s.submitted s.processed) :
    OrderOn s1.messageChan s1.submitted s1.processed := by
  cases m with
  | handler i =>
    simp only [Intake.move] at hm
    split at hm
    · split at hm
      · cases hm
        exact orderOn_send _ _ _ _ h
      · cases hm
    · cases hm
    · cases hm
    · cases hm
      exact h
    · cases hm
  | selectEntering i =>
    simp only [Intake.move] at hm
    split at hm
    · cases hm
      exact orderOn_sync _ _ _ _ rfl h
    · cases hm
  | selectLeaving i =>
    simp only [Intake.move] at hm
    split at hm
    · cases hm
      exact orderOn_sync _ _ _ _ rfl h
    · cases hm
  | selectMessage =>
    simp only [Intake.move] at hm
    split at hm
    · rename_i msg queue hq
      cases hm
      rw [hq] at h
      exact orderOn_receive _ _ _ _ h
    · cases hm

theorem orderOn_run (moves : List Move) (s s1 : Intake) (hr : s.run moves = some s1)
    (h : OrderOn s.messageChan s.submitted s.processed) :
    OrderOn s1.messageChan s1.submitted s1.processed := by
  induction moves generalizing s with
  | nil =>
    simp only [Intake.run, Option.some.injEq] at hr
    subst hr
    exact h
  | cons m rest ih =>
    simp only [Intake.run] at hr
    cases hm : s.move m with
    | none => rw [hm] at hr; cases hr
    | some s2 =>
      rw [hm] at hr
      exact ih s2 hr (orderOn_move s s2 m hm h)

/-- C9 (as amended): for every set of handlers and every schedule of the three
channels and the `select` of `broadcast`: message events are processed in the order
in which they were submitted to `messageChan`; Join and Leave events are processed
in the order in which they were handed over; and a Join or Leave is processed
before everything submitted after it (whatever was processed before it had been
submitted before it).  A message submitted before a Join or Leave is not ordered
with it. -/
theorem intake_order (handlers : List (List Action)) (moves : List Move) (s : Intake)
    (hrun : (Intake.init handlers).run moves = some s) :
    messagesOf s.processed ++ s.messageChan.map Event.message = messagesOf s.submitted ∧
    membershipOf s.processed = membershipOf s.submitted ∧
    (∀ a x b, s.submitted = a ++ x :: b → x.isMessage = false →
      ∃ pa pb, s.processed = pa ++ x :: pb ∧ membershipOf pa = membershipOf a ∧
        messagesOf pa <+: messagesOf a) := by
  apply orderOn_run moves (Intake.init handlers) s hrun
  refine ⟨rfl, rfl, ?_⟩
  intro a x b hsplit _
  simp [Intake.init] at hsplit

/-- Witness of C9 (as amended): the connection of `S1` under `overtakingMoves`. -/
theorem intake_order_witness :
    ((Intake.init [handleConn 1 (demoHeap 1) ["hi"]]).run overtakingMoves
      = some overtakenIntake) ∧
    (messagesOf overtakenIntake.processed ++ overtakenIntake.messageChan.map Event.message
      = messagesOf overtakenIntake.submitted ∧
    membershipOf overtakenIntake.processed = membershipOf overtakenIntake.submitted ∧
    (∀ a x b, overtakenIntake.submitted = a ++ x :: b → x.isMessage = false →
      ∃ pa pb, overtakenIntake.processed = pa ++ x :: pb ∧
        membershipOf pa = membershipOf a ∧ messagesOf pa <+: messagesOf a)) :=
  ⟨by decide, intake_order [handleConn 1 (demoHeap 1) ["hi"]] overtakingMoves overtakenIntake
    (by decide)⟩

/-- C9 as stated fails: one connection (`S1`, saying `hi`) submits its entrance
message, then its Join, then its chat line, then its Leave; with the entrance
message queued in `messageChan` while the handler waits in the Join, the `select`
may take the Join first, and likewise the Leave before the queued chat line: the
events are processed in an order that differs from the order of submission. -/
theorem intake_order_counterexample :
    ((Intake.init [handleConn 1 (demoHeap 1) ["hi"]]).run overtakingMoves).map
        (fun s => (s.submitted, s.processed)) =
      some ([.message ⟨"S1", "S1 has entered the chat room!"⟩, .entering 1,
             .message ⟨"S1", "S1: hi"⟩, .leaving 1],
            [.entering 1, .message ⟨"S1", "S1 has entered the chat room!"⟩,
             .leaving 1, .message ⟨"S1", "S1: hi"⟩]) := by
  decide

end Chatroom
